import Mathlib

/-!
Verification of the flag-transformation and replay pipeline of
`ccjson_to_bc.py` (a compilation-database replayer that re-compiles C
translation units to LLVM bitcode for static analysis).

The Python source is shallowly embedded:
* the module-level flag tables become `List String` constants;
* `is_flag_to_drop` becomes a `Bool`-valued function over those tables;
* the `while` loop of `filter_flags_for_analysis` (index `i` starting at 1,
  including the dead `i == 0` wrapper branch) becomes `filterLoopIdx`,
  a fuel-indexed loop over the argument vector; a structurally recursive
  view `scanGo` over the remaining suffix is proved equal to it;
* the trailing "append analysis flags if absent" loop becomes
  `appendAnalysisFlags`;
* `norm_args`, `is_c_compile`, `pick_src`, `compile_directly` and the exit
  computation of `main` are embedded over an abstract system interface
  (`Sys`) providing the tokenizer, filesystem queries and the compiler
  subprocess, which are external to the program.

The scan state carries, besides the output flag list exactly as built by
the source (`out`), ghost fields used only to state properties:
`pairs` records every (flag, value) couple retained by the keep-pair rule,
`optFired` records whether the optimization-rewrite branch was ever
reached, and `wrapperFired` records whether the wrapper-stripping branch
(guarded by `i == 0` in the source) ever fired.
-/

/-- Byte-faithful model of Python's `str.startswith` on decoded characters. -/
def startswith (s p : String) : Bool := p.data.isPrefixOf s.data

/-- Model of Python's `str.startswith` applied to a tuple of prefixes. -/
def startswithAny (s : String) (ps : List String) : Bool := ps.any (fun p => startswith s p)

/-- Model of Python's `str.endswith`. -/
def endswith (s p : String) : Bool := p.data.isSuffixOf s.data

/-- `SANITIZER_FLAGS` of the source. -/
def SANITIZER_FLAGS : List String :=
  ["-fsanitize=kernel-address", "-fsanitize-address-use-after-scope",
   "-fasan-shadow-offset=0xdffffc0000000000", "-fsanitize=address",
   "-fsanitize-coverage=trace-pc", "-fsanitize-coverage=trace-cmp",
   "-fsanitize-coverage=trace-div", "-fsanitize-coverage=trace-gep",
   "-fsanitize-coverage=indirect-calls", "-fsanitize-coverage=trace-pc-guard",
   "-fsanitize=undefined", "-fsanitize=integer", "-fsanitize=nullability"]

/-- `PROFILING_FLAGS` of the source. -/
def PROFILING_FLAGS : List String :=
  ["-fprofile-instr-generate", "-fprofile-instr-use",
   "-fprofile-generate", "-fprofile-use",
   "-fcoverage-mapping", "-fprofile-arcs", "-ftest-coverage"]

/-- `SECURITY_FLAGS` of the source. -/
def SECURITY_FLAGS : List String :=
  ["-fstack-protector", "-fstack-protector-strong", "-fstack-protector-all",
   "-fstack-clash-protection", "-fcf-protection"]

/-- `DEBUG_FLAGS` of the source (declared there; the split-debug-info set). -/
def DEBUG_FLAGS : List String := ["-gsplit-dwarf", "-gdwarf-5", "-gno-pubnames"]

/-- `KEEP_PAIR` of the source: options kept together with their next argument. -/
def KEEP_PAIR : List String := ["-I", "-isystem", "-idirafter", "-iprefix", "-include", "-imacros"]

/-- `DROP_SINGLE` of the source. -/
def DROP_SINGLE : List String := ["-c", "-E", "-pipe", "-MMD", "-MD", "-MP"]

/-- `DROP_PAIR` of the source. -/
def DROP_PAIR : List String := ["-o", "-Wp,", "-MF", "-MT", "-MQ"]

/-- `WRAPPER_PREFIXES` of the source (matched by exact membership there). -/
def WRAPPER_NAMES : List String := ["ccache", "sccache", "distcc", "icecc"]

/-- `prefixes_to_drop` local to `is_flag_to_drop` in the source. -/
def prefixes_to_drop : List String :=
  ["-fsanitize", "-fno-sanitize", "-fprofile", "-fcoverage",
   "-fstack-protector", "-fcf-protection", "-fstack-clash"]

/-- The optimization-level list of the rewrite branch (`-O1` is absent in the source). -/
def optLevels : List String := ["-O0", "-O2", "-O3", "-Os", "-Oz"]

/-- The allow-list of prefixes of the pass-through branch. -/
def allowPrefixes : List String :=
  ["-D", "-U", "-I", "-isystem", "-include", "-idirafter", "-iprefix",
   "-nostdinc", "-f", "-m", "-W", "-std=", "-mcmodel=", "-march=", "-mtune="]

/-- The warning-suppression exclusions inside the pass-through branch. -/
def wnoPrefixes : List String := ["-Wno-", "-Werror"]

/-- The architecture prefixes of the final keep branch of the scan. -/
def archPrefixes : List String := ["-m32", "-m64", "-march", "-mtune", "-mcpu"]

/-- The fixed tail `analysis_flags` appended after the scan. -/
def analysis_flags : List String :=
  ["-Wno-unknown-warning-option",
   "-Wno-unused-command-line-argument",
   "-fno-discard-value-names",
   "-disable-llvm-passes"]

/-- `is_flag_to_drop` of the source: exact-set membership or prefix match. -/
def is_flag_to_drop (flag : String) : Bool :=
  SANITIZER_FLAGS.contains flag || PROFILING_FLAGS.contains flag
    || SECURITY_FLAGS.contains flag
    || prefixes_to_drop.any (fun p => startswith flag p)

/-- State of the flag scan.  `out` is the output list built by the source.
`pairs`, `optFired` and `wrapperFired` are ghost observations used only to
state properties; the source computes none of them. -/
structure ScanSt where
  out : List String
  pairs : List (String × String)
  optFired : Bool
  wrapperFired : Bool
deriving Repr, DecidableEq

/-- The single-token branches of the scan body (optimization rewrite, debug
canonicalization, allow-listed pass-through, architecture keep, implicit
drop), i.e. lines 116-151 of the source, as a state update. -/
def singleAct (opt : String) (st : ScanSt) (a : String) : ScanSt :=
  if a ∈ optLevels then
    if opt ∈ st.out then { st with optFired := true }
    else { st with out := st.out ++ [opt], optFired := true }
  else if startswith a "-g" = true then
    if a = "-g0" then st
    else if "-g" ∈ st.out then st
    else { st with out := st.out ++ ["-g"] }
  else if startswithAny a allowPrefixes = true then
    if startswithAny a wnoPrefixes = true then st
    else { st with out := st.out ++ [a] }
  else if startswithAny a archPrefixes = true then { st with out := st.out ++ [a] }
  else st

/-- The scan of `filter_flags_for_analysis` viewed on the remaining suffix of
the argument vector (the source iterates an index `i ≥ 1`; `filterLoopIdx`
below is the index-faithful loop and is proved to coincide with this view).
Consuming two tokens at the end of the list just ends the scan, as `i += 2`
does in the source. -/
def scanGo (opt : String) (st : ScanSt) : List String → ScanSt
  | [] => st
  | a :: rest =>
    if a = "-mllvm" then
      match rest with
      | [] => st
      | _ :: r2 => scanGo opt st r2
    else if is_flag_to_drop a = true then scanGo opt st rest
    else if a ∈ DROP_SINGLE ∨ startswith a "-Wp," = true then scanGo opt st rest
    else if a ∈ DROP_PAIR then
      match rest with
      | [] => st
      | _ :: r2 => scanGo opt st r2
    else
      match rest with
      | [] => singleAct opt st a
      | v :: r2 =>
        if a ∈ KEEP_PAIR then
          scanGo opt ⟨st.out ++ [a, v], st.pairs ++ [(a, v)], st.optFired, st.wrapperFired⟩ r2
        else scanGo opt (singleAct opt st a) (v :: r2)

/-- The wrapper test of the dead `i == 0` branch of the source:
membership of `WRAPPER_PREFIXES` or an `endswith ("gcc", "cc", "clang")`. -/
def wrapperCheck (a : String) : Bool :=
  WRAPPER_NAMES.contains a || endswith a "gcc" || endswith a "cc" || endswith a "clang"

/-- Index-faithful embedding of the `while i < len(args)` loop of
`filter_flags_for_analysis`, including the `i == 0` wrapper branch of the
source.  `fuel` bounds the number of iterations; `args.length` iterations
always suffice since `i` grows by at least one. -/
def filterLoopIdx (opt : String) (args : List String) : Nat → Nat → ScanSt → ScanSt
  | 0, _, st => st
  | fuel + 1, i, st =>
    if hi : i < args.length then
      let a := args.get ⟨i, hi⟩
      if i = 0 ∧ wrapperCheck a = true then
        filterLoopIdx opt args fuel (i + 1) { st with wrapperFired := true }
      else if a = "-mllvm" then filterLoopIdx opt args fuel (i + 2) st
      else if is_flag_to_drop a = true then filterLoopIdx opt args fuel (i + 1) st
      else if a ∈ DROP_SINGLE ∨ startswith a "-Wp," = true then
        filterLoopIdx opt args fuel (i + 1) st
      else if a ∈ DROP_PAIR then filterLoopIdx opt args fuel (i + 2) st
      else if hkp : a ∈ KEEP_PAIR ∧ i + 1 < args.length then
        filterLoopIdx opt args fuel (i + 2)
          ⟨st.out ++ [a, args.get ⟨i + 1, hkp.2⟩],
           st.pairs ++ [(a, args.get ⟨i + 1, hkp.2⟩)], st.optFired, st.wrapperFired⟩
      else filterLoopIdx opt args fuel (i + 1) (singleAct opt st a)
    else st

/-- The same loop with every subscript read modelled as a checked `get?`
access (`none` = out-of-bounds read or exhausted fuel, i.e. a read past the
final token or non-termination). -/
def checkedFilterLoop (opt : String) (args : List String) : Nat → Nat → ScanSt → Option ScanSt
  | 0, _, _ => none
  | fuel + 1, i, st =>
    if i < args.length then
      match args.get? i with
      | none => none
      | some a =>
        if i = 0 ∧ wrapperCheck a = true then
          checkedFilterLoop opt args fuel (i + 1) { st with wrapperFired := true }
        else if a = "-mllvm" then checkedFilterLoop opt args fuel (i + 2) st
        else if is_flag_to_drop a = true then checkedFilterLoop opt args fuel (i + 1) st
        else if a ∈ DROP_SINGLE ∨ startswith a "-Wp," = true then
          checkedFilterLoop opt args fuel (i + 1) st
        else if a ∈ DROP_PAIR then checkedFilterLoop opt args fuel (i + 2) st
        else if a ∈ KEEP_PAIR ∧ i + 1 < args.length then
          match args.get? (i + 1) with
          | none => none
          | some v =>
            checkedFilterLoop opt args fuel (i + 2)
              ⟨st.out ++ [a, v], st.pairs ++ [(a, v)], st.optFired, st.wrapperFired⟩
        else checkedFilterLoop opt args fuel (i + 1) (singleAct opt st a)
    else some st

/-- The final state of the scan of `filter_flags_for_analysis` over `args`
(the loop starts at `i = 1`, skipping the compiler name at `args[0]`). -/
def engineScan (opt : String) (args : List String) : ScanSt :=
  filterLoopIdx opt args args.length 1 ⟨[], [], false, false⟩

/-- The checked-access counterpart of `engineScan`. -/
def checkedEngineScan (opt : String) (args : List String) : Option ScanSt :=
  checkedFilterLoop opt args (args.length + 1) 1 ⟨[], [], false, false⟩

/-- The post-scan loop of the source appending each of `analysis_flags`
when absent. -/
def appendAnalysisFlags (out : List String) : List String :=
  analysis_flags.foldl (fun o f => if f ∈ o then o else o ++ [f]) out

/-- `filter_flags_for_analysis` of the source: the scan's output plus the
deduplicated analysis tail. -/
def filter_flags_for_analysis (opt : String) (args : List String) : List String :=
  appendAnalysisFlags (engineScan opt args).out

/-- Ghost observation: the (flag, value) couples retained by the keep-pair
rule during the scan. -/
def enginePairs (opt : String) (args : List String) : List (String × String) :=
  (engineScan opt args).pairs

example : filter_flags_for_analysis "-O0" ["cc", "-D__KERNEL__", "-fsanitize=address", "-O2", "-g", "-c", "x.c", "-o", "x.o"] =
    ["-D__KERNEL__", "-O0", "-g", "-Wno-unknown-warning-option",
     "-Wno-unused-command-line-argument", "-fno-discard-value-names",
     "-disable-llvm-passes"] := by decide

/-! ## The run orchestrator (`compile_directly` and the exit status of `main`) -/

/-- One record of the compilation database: a working directory and either a
pre-split argument list or a shell command string. -/
structure Entry where
  directory : String
  arguments : Option (List String)
  command : String

/-- Result of one compiler subprocess execution as classified by the source:
exit status 0, non-zero exit, `TimeoutExpired`, or any other exception. -/
inductive RunRes
  | ok
  | nonzero
  | timeout
  | exc
deriving Repr, DecidableEq

/-- The externals the script interacts with: the shell tokenizer
(`shlex.split`), filesystem existence queries (`Path.exists`), file
modification times, and the compiler subprocess (`subprocess.run`).
The source never reads a modification time (it prints "force recompile all
files"); `fsMtime` is present so that properties about timestamps can be
stated. -/
structure Sys where
  tok : String → List String
  fsExists : String → Bool
  fsMtime : String → Nat
  run : List String → String → RunRes

/-- The environment-derived configuration: `CLANG`, `TARGET`, `OPTIMIZATION`. -/
structure Cfg where
  clang : String
  target : String
  opt : String

/-- `norm_args` of the source; Python's truthiness test sends a missing or
empty `arguments` list to `shlex.split` of the command string. -/
def norm_args (tok : String → List String) (e : Entry) : List String :=
  match e.arguments with
  | some (a :: rest) => a :: rest
  | _ => tok e.command

/-- `is_c_compile` of the source. -/
def is_c_compile (args : List String) : Bool :=
  args.contains "-c" && args.any (fun a => endswith a ".c") && !(args.contains "-E")

/-- `pick_src` of the source: the last `.c` token. -/
def pick_src (args : List String) : Option String :=
  (args.filter (fun a => endswith a ".c")).getLast?

/-- Model of `Path(p).is_absolute()` on POSIX. -/
def isAbs (p : String) : Bool := startswith p "/"

/-- Model of `Path(p).with_suffix(".bc")` for the paths the script feeds it
(`pick_src` guarantees a `.c` suffix; otherwise `.bc` is appended, as
`with_suffix` does on a suffix-less final component). -/
def withSuffixBC (p : String) : String :=
  if endswith p ".c" = true then ⟨p.data.dropLast.dropLast ++ ".bc".data⟩
  else p ++ ".bc"

/-- Model of pathlib's `/` for a relative right operand. -/
def joinP (c s : String) : String := c ++ "/" ++ s

/-- Outcome of processing one record in the loop of `compile_directly`:
whether `total` was incremented, whether `success` was incremented, whether
`failed` was incremented, and the subprocess invocations performed
(command vector together with its working directory). -/
structure StepRes where
  considered : Bool
  succeeded : Bool
  failedRec : Bool
  invoked : List (List String × String)
deriving Repr, DecidableEq

/-- The body of the `for entry in entries` loop of `compile_directly`:
normalize, classify (single-file C compile containing `-D__KERNEL__`),
resolve the source and artifact paths, check source existence, and run the
compiler.  No timestamp is ever consulted. -/
def recordStep (cfg : Cfg) (sys : Sys) (e : Entry) : StepRes :=
  let args := norm_args sys.tok e
  if args = [] ∨ is_c_compile args = false then ⟨false, false, false, []⟩
  else if "-D__KERNEL__" ∉ args then ⟨false, false, false, []⟩
  else
    match pick_src args with
    | none => ⟨false, false, false, []⟩
    | some src =>
      let cwd := e.directory
      let bc_path := if isAbs src = true then withSuffixBC src else joinP cwd (withSuffixBC src)
      let flags := filter_flags_for_analysis cfg.opt args
      let src_path := if isAbs src = true then src else joinP cwd src
      if sys.fsExists src_path = false then ⟨true, false, true, []⟩
      else
        let cmd := [cfg.clang]
          ++ (if cfg.target ≠ "" then ["--target=" ++ cfg.target] else [])
          ++ ["-emit-llvm", "-c", src, "-o", bc_path] ++ flags
        match sys.run cmd cwd with
        | RunRes.ok => ⟨true, true, false, [(cmd, cwd)]⟩
        | _ => ⟨true, false, true, [(cmd, cwd)]⟩

/-- The counters of `compile_directly` plus the performed invocations. -/
structure Totals where
  total : Nat
  success : Nat
  failed : Nat
  invoked : List (List String × String)
deriving Repr, DecidableEq

/-- Counter update for one record. -/
def addStep (t : Totals) (r : StepRes) : Totals :=
  ⟨t.total + (if r.considered then 1 else 0),
   t.success + (if r.succeeded then 1 else 0),
   t.failed + (if r.failedRec then 1 else 0),
   t.invoked ++ r.invoked⟩

/-- `compile_directly` of the source: the full pass over the database. -/
def compile_directly (cfg : Cfg) (sys : Sys) (entries : List Entry) : Totals :=
  entries.foldl (fun t e => addStep t (recordStep cfg sys e)) ⟨0, 0, 0, []⟩

/-- The exit status computed by `main` after the pass:
`return 0 if success > 0 else 1`. -/
def mainExitCode (cfg : Cfg) (sys : Sys) (entries : List Entry) : Nat :=
  if (compile_directly cfg sys entries).success > 0 then 0 else 1

/-! ## Basic lemmas about the scan -/

theorem singleAct_pairs (opt : String) (st : ScanSt) (a : String) :
    (singleAct opt st a).pairs = st.pairs := by
  unfold singleAct
  repeat' split
  all_goals rfl

theorem singleAct_wrapperFired (opt : String) (st : ScanSt) (a : String) :
    (singleAct opt st a).wrapperFired = st.wrapperFired := by
  unfold singleAct
  repeat' split
  all_goals rfl

theorem singleAct_out_grows (opt : String) (st : ScanSt) (a : String) :
    st.out <+: (singleAct opt st a).out := by
  unfold singleAct
  repeat' split
  all_goals simp

/-- The scan never touches the `wrapperFired` ghost flag: the wrapper branch
exists only in the indexed loop. -/
theorem scanGo_wrapperFired (opt : String) (st : ScanSt) (l : List String) :
    (scanGo opt st l).wrapperFired = st.wrapperFired := by
  induction st, l using scanGo.induct opt with
  | _ =>
    first
    | rfl
    | (rw [scanGo.eq_def]
       repeat' split
       all_goals simp_all [singleAct_wrapperFired])

/-- The scan only appends to the output list. -/
theorem scanGo_out_grows (opt : String) (st : ScanSt) (l : List String) :
    st.out <+: (scanGo opt st l).out := by
  induction st, l using scanGo.induct opt with
  | _ =>
    first
    | exact List.prefix_rfl
    | (rw [scanGo.eq_def]
       repeat' split
       all_goals (try exact List.prefix_rfl)
       all_goals (try simp_all)
       all_goals (first
         | assumption
         | exact singleAct_out_grows ..
         | exact List.IsPrefix.trans (singleAct_out_grows ..) (by assumption)
         | (refine List.IsPrefix.trans ?_ (by assumption); simp)))

/-- The scan only appends to the recorded keep-pair list. -/
theorem scanGo_pairs_grows (opt : String) (st : ScanSt) (l : List String) :
    st.pairs <+: (scanGo opt st l).pairs := by
  induction st, l using scanGo.induct opt with
  | _ =>
    first
    | exact List.prefix_rfl
    | (rw [scanGo.eq_def]
       repeat' split
       all_goals (try exact List.prefix_rfl)
       all_goals (try simp_all [singleAct_pairs])
       all_goals (first
         | assumption
         | simp [singleAct_pairs]
         | (refine List.IsPrefix.trans ?_ (by assumption); simp [singleAct_pairs])))

/-! ### Single-step equations for the scan -/

theorem scanGo_mllvm (opt : String) (st : ScanSt) (l : List String) :
    scanGo opt st ("-mllvm" :: l) = scanGo opt st l.tail := by
  rw [scanGo.eq_def]
  cases l <;> simp [scanGo]

theorem scanGo_dropflag (opt : String) (st : ScanSt) (a : String) (l : List String)
    (hm : a ≠ "-mllvm") (h : is_flag_to_drop a = true) :
    scanGo opt st (a :: l) = scanGo opt st l := by
  rw [scanGo.eq_def]
  simp [hm, h]

theorem scanGo_dropsingle (opt : String) (st : ScanSt) (a : String) (l : List String)
    (hm : a ≠ "-mllvm") (h1 : is_flag_to_drop a = false)
    (h : a ∈ DROP_SINGLE ∨ startswith a "-Wp," = true) :
    scanGo opt st (a :: l) = scanGo opt st l := by
  rw [scanGo.eq_def]
  rcases h with h | h <;> simp [hm, h1, h]

theorem scanGo_droppair (opt : String) (st : ScanSt) (a : String) (l : List String)
    (hm : a ≠ "-mllvm") (h1 : is_flag_to_drop a = false)
    (h2 : a ∉ DROP_SINGLE) (h3 : startswith a "-Wp," = false) (h : a ∈ DROP_PAIR) :
    scanGo opt st (a :: l) = scanGo opt st l.tail := by
  rw [scanGo.eq_def]
  cases l <;> simp [hm, h1, h2, h3, h, scanGo]

theorem scanGo_pair (opt : String) (st : ScanSt) (a v : String) (l : List String)
    (hm : a ≠ "-mllvm") (h1 : is_flag_to_drop a = false)
    (h2 : a ∉ DROP_SINGLE) (h3 : startswith a "-Wp," = false) (h4 : a ∉ DROP_PAIR)
    (hk : a ∈ KEEP_PAIR) :
    scanGo opt st (a :: v :: l) =
      scanGo opt ⟨st.out ++ [a, v], st.pairs ++ [(a, v)], st.optFired, st.wrapperFired⟩ l := by
  rw [scanGo.eq_def]
  simp [hm, h1, h2, h3, h4, hk]

theorem scanGo_single (opt : String) (st : ScanSt) (a : String) (l : List String)
    (hm : a ≠ "-mllvm") (h1 : is_flag_to_drop a = false)
    (h2 : a ∉ DROP_SINGLE) (h3 : startswith a "-Wp," = false) (h4 : a ∉ DROP_PAIR)
    (hk : a ∉ KEEP_PAIR) :
    scanGo opt st (a :: l) = scanGo opt (singleAct opt st a) l := by
  rw [scanGo.eq_def]
  cases l <;> simp [hm, h1, h2, h3, h4, hk, scanGo]
/-! ### Token-table facts -/

theorem kp_facts : ∀ a ∈ KEEP_PAIR, a ≠ "-mllvm" ∧ is_flag_to_drop a = false ∧
    a ∉ DROP_SINGLE ∧ startswith a "-Wp," = false ∧ a ∉ DROP_PAIR := by decide

theorem optLevels_facts : ∀ a ∈ optLevels, a ≠ "-mllvm" ∧ is_flag_to_drop a = false ∧
    a ∉ DROP_SINGLE ∧ startswith a "-Wp," = false ∧ a ∉ DROP_PAIR ∧ a ∉ KEEP_PAIR := by decide

theorem g_facts : ("-g" : String) ≠ "-mllvm" ∧ is_flag_to_drop "-g" = false ∧
    ("-g" : String) ∉ DROP_SINGLE ∧ startswith "-g" "-Wp," = false ∧
    ("-g" : String) ∉ DROP_PAIR ∧ ("-g" : String) ∉ KEEP_PAIR := by decide

/-! ### The indexed loop agrees with the suffix view once past index 0 -/

theorem filterLoopIdx_eq_scanGo (opt : String) (args : List String) :
    ∀ (fuel i : Nat) (st : ScanSt), 1 ≤ i → args.length - i ≤ fuel →
      filterLoopIdx opt args fuel i st = scanGo opt st (args.drop i) := by
  intro fuel
  induction fuel with
  | zero =>
    intro i st h1 h2
    rw [List.drop_eq_nil_of_le (by omega)]
    rfl
  | succ fuel ih =>
    intro i st h1 h2
    rw [filterLoopIdx]
    by_cases hi : i < args.length
    · simp only [dif_pos hi]
      have hdrop : args.drop i = args.get ⟨i, hi⟩ :: args.drop (i + 1) :=
        List.drop_eq_getElem_cons hi
      have hw : ¬(i = 0 ∧ wrapperCheck (args.get ⟨i, hi⟩) = true) := by
        rintro ⟨rfl, -⟩; omega
      rw [if_neg hw]
      by_cases hm : args.get ⟨i, hi⟩ = "-mllvm"
      · rw [if_pos hm, ih (i + 2) st (by omega) (by omega), hdrop, hm, scanGo_mllvm]
        rw [List.tail_drop]
      · rw [if_neg hm]
        by_cases hfd : is_flag_to_drop (args.get ⟨i, hi⟩) = true
        · rw [if_pos hfd, ih (i + 1) st (by omega) (by omega), hdrop,
            scanGo_dropflag opt st _ _ hm hfd]
        · rw [if_neg hfd]
          by_cases hds : args.get ⟨i, hi⟩ ∈ DROP_SINGLE ∨
              startswith (args.get ⟨i, hi⟩) "-Wp," = true
          · rw [if_pos hds, ih (i + 1) st (by omega) (by omega), hdrop,
              scanGo_dropsingle opt st _ _ hm (by simpa using hfd) hds]
          · rw [if_neg hds]
            push_neg at hds
            by_cases hdp : args.get ⟨i, hi⟩ ∈ DROP_PAIR
            · rw [if_pos hdp, ih (i + 2) st (by omega) (by omega), hdrop,
                scanGo_droppair opt st _ _ hm (by simpa using hfd) hds.1
                  (by simpa using hds.2) hdp]
              rw [List.tail_drop]
            · rw [if_neg hdp]
              by_cases hkp : args.get ⟨i, hi⟩ ∈ KEEP_PAIR ∧ i + 1 < args.length
              · simp only [dif_pos hkp]
                have hdrop2 : args.drop (i + 1) =
                    args.get ⟨i + 1, hkp.2⟩ :: args.drop (i + 2) :=
                  List.drop_eq_getElem_cons hkp.2
                rw [ih (i + 2) _ (by omega) (by omega), hdrop, hdrop2,
                  scanGo_pair opt st _ _ _ hm (by simpa using hfd) hds.1
                    (by simpa using hds.2) hdp hkp.1]
              · simp only [dif_neg hkp]
                rw [ih (i + 1) _ (by omega) (by omega), hdrop]
                rcases Decidable.em (args.get ⟨i, hi⟩ ∈ KEEP_PAIR) with hk | hk
                · -- keep-pair token with no successor: i + 1 = length
                  have hlen : ¬ i + 1 < args.length := fun hcon => hkp ⟨hk, hcon⟩
                  have hnil : args.drop (i + 1) = [] :=
                    List.drop_eq_nil_of_le (by omega)
                  rw [hnil]
                  symm
                  rw [scanGo.eq_def]
                  simp [hm, (by simpa using hfd : is_flag_to_drop _ = false),
                    hds.1, (by simpa using hds.2 : startswith _ "-Wp," = false), hdp,
                    scanGo]
                  simp only [List.get_eq_getElem] at hm hds hdp
                  simp [hm, hds.1, hdp]
                · rw [scanGo_single opt st _ _ hm (by simpa using hfd) hds.1
                    (by simpa using hds.2) hdp hk]
    · simp only [dif_neg hi]
      rw [List.drop_eq_nil_of_le (by omega)]
      rfl
/-! ### The checked-access loop never reads out of bounds and terminates -/

theorem checkedFilterLoop_eq_scanGo (opt : String) (args : List String) :
    ∀ (fuel i : Nat) (st : ScanSt), 1 ≤ i → args.length - i < fuel →
      checkedFilterLoop opt args fuel i st = some (scanGo opt st (args.drop i)) := by
  intro fuel
  induction fuel with
  | zero => intro i st h1 h2; omega
  | succ fuel ih =>
    intro i st h1 h2
    rw [checkedFilterLoop]
    by_cases hi : i < args.length
    · rw [if_pos hi]
      have hget : args.get? i = some (args.get ⟨i, hi⟩) := List.get?_eq_get hi
      simp only [hget]
      have hdrop : args.drop i = args.get ⟨i, hi⟩ :: args.drop (i + 1) :=
        List.drop_eq_getElem_cons hi
      have hw : ¬(i = 0 ∧ wrapperCheck (args.get ⟨i, hi⟩) = true) := by
        rintro ⟨rfl, -⟩; omega
      rw [if_neg hw]
      by_cases hm : args.get ⟨i, hi⟩ = "-mllvm"
      · rw [if_pos hm, ih (i + 2) st (by omega) (by omega), hdrop, hm, scanGo_mllvm]
        rw [List.tail_drop]
      · rw [if_neg hm]
        by_cases hfd : is_flag_to_drop (args.get ⟨i, hi⟩) = true
        · rw [if_pos hfd, ih (i + 1) st (by omega) (by omega), hdrop,
            scanGo_dropflag opt st _ _ hm hfd]
        · rw [if_neg hfd]
          by_cases hds : args.get ⟨i, hi⟩ ∈ DROP_SINGLE ∨
              startswith (args.get ⟨i, hi⟩) "-Wp," = true
          · rw [if_pos hds, ih (i + 1) st (by omega) (by omega), hdrop,
              scanGo_dropsingle opt st _ _ hm (by simpa using hfd) hds]
          · rw [if_neg hds]
            push_neg at hds
            by_cases hdp : args.get ⟨i, hi⟩ ∈ DROP_PAIR
            · rw [if_pos hdp, ih (i + 2) st (by omega) (by omega), hdrop,
                scanGo_droppair opt st _ _ hm (by simpa using hfd) hds.1
                  (by simpa using hds.2) hdp]
              rw [List.tail_drop]
            · rw [if_neg hdp]
              by_cases hkp : args.get ⟨i, hi⟩ ∈ KEEP_PAIR ∧ i + 1 < args.length
              · rw [if_pos hkp]
                have hget2 : args.get? (i + 1) = some (args.get ⟨i + 1, hkp.2⟩) :=
                  List.get?_eq_get hkp.2
                simp only [hget2]
                have hdrop2 : args.drop (i + 1) =
                    args.get ⟨i + 1, hkp.2⟩ :: args.drop (i + 2) :=
                  List.drop_eq_getElem_cons hkp.2
                rw [ih (i + 2) _ (by omega) (by omega), hdrop, hdrop2,
                  scanGo_pair opt st _ _ _ hm (by simpa using hfd) hds.1
                    (by simpa using hds.2) hdp hkp.1]
              · rw [if_neg hkp]
                rw [ih (i + 1) _ (by omega) (by omega), hdrop]
                rcases Decidable.em (args.get ⟨i, hi⟩ ∈ KEEP_PAIR) with hk | hk
                · have hlen : ¬ i + 1 < args.length := fun hcon => hkp ⟨hk, hcon⟩
                  have hnil : args.drop (i + 1) = [] :=
                    List.drop_eq_nil_of_le (by omega)
                  rw [hnil]
                  have : scanGo opt st [args.get ⟨i, hi⟩] = singleAct opt st (args.get ⟨i, hi⟩) := by
                    rw [scanGo.eq_def]
                    simp [hm, (by simpa using hfd : is_flag_to_drop _ = false),
                      hds.1, (by simpa using hds.2 : startswith _ "-Wp," = false), hdp,
                      scanGo]
                    simp only [List.get_eq_getElem] at hm hds hdp
                    simp [hm, hds.1, hdp]
                  rw [this]
                  rfl
                · rw [scanGo_single opt st _ _ hm (by simpa using hfd) hds.1
                    (by simpa using hds.2) hdp hk]
    · rw [if_neg hi]
      rw [List.drop_eq_nil_of_le (by omega)]
      rfl
/-! ### Rescan-stability of the scan output (for idempotence) -/

/-- A token that reaches the pass-through branch of the scan and is appended
as itself (not an earlier branch, not an optimization level, not `-g`-like). -/
def passThru (a : String) : Bool :=
  !(a == "-mllvm") && !(is_flag_to_drop a) && !(DROP_SINGLE.contains a)
    && !(startswith a "-Wp,") && !(DROP_PAIR.contains a) && !(KEEP_PAIR.contains a)
    && !(optLevels.contains a) && !(startswith a "-g")
    && startswithAny a allowPrefixes && !(startswithAny a wnoPrefixes)

theorem passThru_iff (a : String) : passThru a = true ↔
    (a ≠ "-mllvm" ∧ is_flag_to_drop a = false ∧ a ∉ DROP_SINGLE ∧
     startswith a "-Wp," = false ∧ a ∉ DROP_PAIR ∧ a ∉ KEEP_PAIR ∧
     a ∉ optLevels ∧ startswith a "-g" = false ∧
     startswithAny a allowPrefixes = true ∧ startswithAny a wnoPrefixes = false) := by
  unfold passThru
  simp only [Bool.and_eq_true, Bool.not_eq_true', beq_eq_false_iff_ne,
    List.contains, List.elem_eq_mem, decide_eq_false_iff_not, and_assoc]

theorem passThru_spec {a : String} (h : passThru a = true) :
    a ≠ "-mllvm" ∧ is_flag_to_drop a = false ∧ a ∉ DROP_SINGLE ∧
    startswith a "-Wp," = false ∧ a ∉ DROP_PAIR ∧ a ∉ KEEP_PAIR ∧
    a ∉ optLevels ∧ startswith a "-g" = false ∧
    startswithAny a allowPrefixes = true ∧ startswithAny a wnoPrefixes = false :=
  (passThru_iff a).mp h

/-- `Stable opt acc s`: rescanning the block list `s` from an output
accumulator `acc` appends exactly `s` again.  The constructors mirror the
appending branches of the scan. -/
inductive Stable (opt : String) : List String → List String → Prop
  | nil (acc : List String) : Stable opt acc []
  | pair (acc : List String) (a v : String) (s : List String) (hk : a ∈ KEEP_PAIR)
      (h : Stable opt (acc ++ [a, v]) s) : Stable opt acc (a :: v :: s)
  | optTok (acc : List String) (s : List String) (h1 : opt ∈ optLevels) (h2 : opt ∉ acc)
      (h : Stable opt (acc ++ [opt]) s) : Stable opt acc (opt :: s)
  | dbg (acc : List String) (s : List String) (h2 : "-g" ∉ acc)
      (h : Stable opt (acc ++ ["-g"]) s) : Stable opt acc ("-g" :: s)
  | single (acc : List String) (a : String) (s : List String) (hp : passThru a = true)
      (h : Stable opt (acc ++ [a]) s) : Stable opt acc (a :: s)

/-- Rescanning a stable block list appends it verbatim and continues with the
rest of the input. -/
theorem stable_rescan {opt : String} {acc s : List String} (h : Stable opt acc s) :
    ∀ (st : ScanSt) (t : List String), st.out = acc →
      ∃ st2 : ScanSt, scanGo opt st (s ++ t) = scanGo opt st2 t ∧ st2.out = acc ++ s := by
  induction h with
  | nil acc =>
    intro st t hout
    exact ⟨st, rfl, by simp [hout]⟩
  | pair acc a v s hk h ih =>
    intro st t hout
    have hf := kp_facts a hk
    rw [List.cons_append, List.cons_append,
      scanGo_pair opt st a v (s ++ t) hf.1 hf.2.1 hf.2.2.1 hf.2.2.2.1 hf.2.2.2.2 hk]
    obtain ⟨st2, heq, hout2⟩ :=
      ih ⟨st.out ++ [a, v], st.pairs ++ [(a, v)], st.optFired, st.wrapperFired⟩ t
        (by simp [hout])
    exact ⟨st2, heq, by simpa using hout2⟩
  | optTok acc s h1 h2 h ih =>
    intro st t hout
    have hf := optLevels_facts opt h1
    rw [List.cons_append,
      scanGo_single opt st opt (s ++ t) hf.1 hf.2.1 hf.2.2.1 hf.2.2.2.1
        hf.2.2.2.2.1 hf.2.2.2.2.2]
    have hact : singleAct opt st opt = { st with out := st.out ++ [opt], optFired := true } := by
      unfold singleAct
      rw [if_pos h1, if_neg (by rw [hout]; exact h2)]
    rw [hact]
    obtain ⟨st2, heq, hout2⟩ :=
      ih { st with out := st.out ++ [opt], optFired := true } t (by simp [hout])
    exact ⟨st2, heq, by simpa using hout2⟩
  | dbg acc s h2 h ih =>
    intro st t hout
    rw [List.cons_append,
      scanGo_single opt st "-g" (s ++ t) (by decide) (by decide) (by decide)
        (by decide) (by decide) (by decide)]
    have hact : singleAct opt st "-g" = { st with out := st.out ++ ["-g"] } := by
      unfold singleAct
      rw [if_neg (by decide), if_pos (by decide), if_neg (by decide),
        if_neg (by rw [hout]; exact h2)]
    rw [hact]
    obtain ⟨st2, heq, hout2⟩ := ih { st with out := st.out ++ ["-g"] } t (by simp [hout])
    exact ⟨st2, heq, by simpa using hout2⟩
  | single acc a s hp h ih =>
    intro st t hout
    have hf := passThru_spec hp
    rw [List.cons_append,
      scanGo_single opt st a (s ++ t) hf.1 hf.2.1 hf.2.2.1 hf.2.2.2.1
        hf.2.2.2.2.1 hf.2.2.2.2.2.1]
    have hact : singleAct opt st a = { st with out := st.out ++ [a] } := by
      unfold singleAct
      rw [if_neg hf.2.2.2.2.2.2.1, if_neg (by simp [hf.2.2.2.2.2.2.2.1]),
        if_pos hf.2.2.2.2.2.2.2.2.1, if_neg (by simp [hf.2.2.2.2.2.2.2.2.2])]
    rw [hact]
    obtain ⟨st2, heq, hout2⟩ := ih { st with out := st.out ++ [a] } t (by simp [hout])
    exact ⟨st2, heq, by simpa using hout2⟩
/-- The final token of the scanned suffix is not a bare keep-pair flag
(a keep-pair flag with no following value is retained alone by the
allow-list branch and would pair up with a tail flag on a rescan). -/
def noBareKP (l : List String) : Prop := ∀ x, l.getLast? = some x → x ∉ KEEP_PAIR

theorem noBareKP_tail {a : String} {rest : List String} (h : noBareKP (a :: rest)) :
    noBareKP rest := by
  intro x hx
  cases rest with
  | nil => simp at hx
  | cons b t => exact h x (by rw [List.getLast?_cons_cons]; exact hx)

theorem noBareKP_tailAny {l : List String} (h : noBareKP l) : noBareKP l.tail := by
  cases l with
  | nil => simpa using h
  | cons a rest => exact noBareKP_tail h

theorem arch_imp_allow {a : String} (h : startswithAny a archPrefixes = true) :
    startswithAny a allowPrefixes = true := by
  simp only [startswithAny, List.any_eq_true] at h ⊢
  obtain ⟨p, hp, hsp⟩ := h
  refine ⟨"-m", by decide, ?_⟩
  simp only [startswith, List.isPrefixOf_iff_prefix] at hsp ⊢
  refine List.IsPrefix.trans ?_ hsp
  fin_cases hp <;> decide

/-- The scan only ever appends stable blocks: its output minus the incoming
accumulator is rescan-stable (provided the configured level is a recognized
optimization token and the scanned suffix does not end in a bare keep-pair
flag). -/
theorem scan_stable (opt : String) (hopt : opt ∈ optLevels) :
    ∀ (n : Nat) (l : List String), l.length ≤ n → noBareKP l →
      ∀ st : ScanSt, ∃ δ, (scanGo opt st l).out = st.out ++ δ ∧ Stable opt st.out δ := by
  intro n
  induction n with
  | zero =>
    intro l hl _ st
    have : l = [] := List.length_eq_zero.mp (Nat.le_zero.mp hl)
    subst this
    exact ⟨[], by simp [scanGo], Stable.nil _⟩
  | succ n ih =>
    intro l hl hnb st
    cases l with
    | nil => exact ⟨[], by simp [scanGo], Stable.nil _⟩
    | cons a rest =>
      have hrl : rest.length ≤ n := by simp at hl; omega
      have hrtl : rest.tail.length ≤ n := by
        have := List.length_tail rest
        omega
      by_cases hm : a = "-mllvm"
      · subst hm
        rw [scanGo_mllvm]
        exact ih rest.tail hrtl (noBareKP_tailAny (noBareKP_tail hnb)) st
      · by_cases hfd : is_flag_to_drop a = true
        · rw [scanGo_dropflag opt st a rest hm hfd]
          exact ih rest hrl (noBareKP_tail hnb) st
        · replace hfd : is_flag_to_drop a = false := by simpa using hfd
          by_cases hds : a ∈ DROP_SINGLE ∨ startswith a "-Wp," = true
          · rw [scanGo_dropsingle opt st a rest hm hfd hds]
            exact ih rest hrl (noBareKP_tail hnb) st
          · push_neg at hds
            obtain ⟨hds1, hds2⟩ := hds
            replace hds2 : startswith a "-Wp," = false := by simpa using hds2
            by_cases hdp : a ∈ DROP_PAIR
            · rw [scanGo_droppair opt st a rest hm hfd hds1 hds2 hdp]
              exact ih rest.tail hrtl (noBareKP_tailAny (noBareKP_tail hnb)) st
            · by_cases hk : a ∈ KEEP_PAIR
              · cases rest with
                | nil => exact absurd hk (hnb a (by simp))
                | cons v r2 =>
                  rw [scanGo_pair opt st a v r2 hm hfd hds1 hds2 hdp hk]
                  obtain ⟨δ, hδ, hst⟩ :=
                    ih r2 (by simp at hl; omega) (noBareKP_tail (noBareKP_tail hnb))
                      ⟨st.out ++ [a, v], st.pairs ++ [(a, v)], st.optFired, st.wrapperFired⟩
                  exact ⟨a :: v :: δ, by simpa using hδ,
                    Stable.pair _ a v δ hk (by simpa using hst)⟩
              · rw [scanGo_single opt st a rest hm hfd hds1 hds2 hdp hk]
                by_cases hol : a ∈ optLevels
                · by_cases hoin : opt ∈ st.out
                  · have hact : singleAct opt st a = { st with optFired := true } := by
                      unfold singleAct
                      rw [if_pos hol, if_pos hoin]
                    rw [hact]
                    obtain ⟨δ, hδ, hst⟩ :=
                      ih rest hrl (noBareKP_tail hnb) { st with optFired := true }
                    exact ⟨δ, by simpa using hδ, by simpa using hst⟩
                  · have hact : singleAct opt st a =
                        { st with out := st.out ++ [opt], optFired := true } := by
                      unfold singleAct
                      rw [if_pos hol, if_neg hoin]
                    rw [hact]
                    obtain ⟨δ, hδ, hst⟩ := ih rest hrl (noBareKP_tail hnb)
                      { st with out := st.out ++ [opt], optFired := true }
                    exact ⟨opt :: δ, by simpa using hδ,
                      Stable.optTok _ δ hopt hoin (by simpa using hst)⟩
                · by_cases hg : startswith a "-g" = true
                  · by_cases hg0 : a = "-g0"
                    · have hact : singleAct opt st a = st := by
                        unfold singleAct
                        rw [if_neg hol, if_pos hg, if_pos hg0]
                      rw [hact]
                      exact ih rest hrl (noBareKP_tail hnb) st
                    · by_cases hgin : "-g" ∈ st.out
                      · have hact : singleAct opt st a = st := by
                          unfold singleAct
                          rw [if_neg hol, if_pos hg, if_neg hg0, if_pos hgin]
                        rw [hact]
                        exact ih rest hrl (noBareKP_tail hnb) st
                      · have hact : singleAct opt st a =
                            { st with out := st.out ++ ["-g"] } := by
                          unfold singleAct
                          rw [if_neg hol, if_pos hg, if_neg hg0, if_neg hgin]
                        rw [hact]
                        obtain ⟨δ, hδ, hst⟩ := ih rest hrl (noBareKP_tail hnb)
                          { st with out := st.out ++ ["-g"] }
                        exact ⟨"-g" :: δ, by simpa using hδ,
                          Stable.dbg _ δ hgin (by simpa using hst)⟩
                  · replace hg : startswith a "-g" = false := by simpa using hg
                    by_cases hal : startswithAny a allowPrefixes = true
                    · by_cases hwn : startswithAny a wnoPrefixes = true
                      · have hact : singleAct opt st a = st := by
                          unfold singleAct
                          rw [if_neg hol, if_neg (by simp [hg]), if_pos hal, if_pos hwn]
                        rw [hact]
                        exact ih rest hrl (noBareKP_tail hnb) st
                      · replace hwn : startswithAny a wnoPrefixes = false := by simpa using hwn
                        have hact : singleAct opt st a =
                            { st with out := st.out ++ [a] } := by
                          unfold singleAct
                          rw [if_neg hol, if_neg (by simp [hg]), if_pos hal,
                            if_neg (by simp [hwn])]
                        rw [hact]
                        obtain ⟨δ, hδ, hst⟩ := ih rest hrl (noBareKP_tail hnb)
                          { st with out := st.out ++ [a] }
                        have hpt : passThru a = true :=
                          (passThru_iff a).mpr ⟨hm, hfd, hds1, hds2, hdp, hk, hol, hg, hal, hwn⟩
                        exact ⟨a :: δ, by simpa using hδ,
                          Stable.single _ a δ hpt (by simpa using hst)⟩
                    · by_cases har : startswithAny a archPrefixes = true
                      · exact absurd (arch_imp_allow har) hal
                      · have hact : singleAct opt st a = st := by
                          unfold singleAct
                          rw [if_neg hol, if_neg (by simp [hg]), if_neg hal, if_neg har]
                        rw [hact]
                        exact ih rest hrl (noBareKP_tail hnb) st
/-- The indexed engine state coincides with the suffix view of the scan. -/
theorem engineScan_eq_scanGo (opt : String) (args : List String) :
    engineScan opt args = scanGo opt ⟨[], [], false, false⟩ (args.drop 1) :=
  filterLoopIdx_eq_scanGo opt args args.length 1 ⟨[], [], false, false⟩ (by omega) (by omega)

/-- When the value-name flag is already present in the scan output, the
appended tail consists only of the two warning-suppression flags and the
pass-disabling flag. -/
theorem appendAnalysisFlags_decomp {o : List String}
    (hF : "-fno-discard-value-names" ∈ o) :
    ∃ t : List String, appendAnalysisFlags o = o ++ t ∧
      ∀ x ∈ t, x = "-Wno-unknown-warning-option" ∨
        x = "-Wno-unused-command-line-argument" ∨ x = "-disable-llvm-passes" := by
  unfold appendAnalysisFlags analysis_flags
  simp only [List.foldl_cons, List.foldl_nil]
  by_cases h1 : "-Wno-unknown-warning-option" ∈ o <;>
    by_cases h2 : "-Wno-unused-command-line-argument" ∈ o <;>
    by_cases h4 : "-disable-llvm-passes" ∈ o <;>
    simp only [h1, h2, h4, hF, List.mem_append, List.mem_singleton, List.mem_cons,
      or_true, true_or, or_false, false_or, List.not_mem_nil,
      String.reduceEq, or_self, ite_true, ite_false, List.append_assoc]
  all_goals (
    first
    | (refine ⟨_, rfl, ?_⟩
       intro x hx
       simp only [List.mem_append, List.mem_singleton, List.mem_cons,
         List.not_mem_nil, or_false] at hx
       tauto)
    | (refine ⟨[], ?_, ?_⟩ <;> simp))

/-- The two warning-suppression tail flags and the pass-disabling tail flag
are all dropped by the scan, whatever the current state. -/
theorem scan_drops_tail (opt : String) :
    ∀ (t : List String), (∀ x ∈ t, x = "-Wno-unknown-warning-option" ∨
        x = "-Wno-unused-command-line-argument" ∨ x = "-disable-llvm-passes") →
      ∀ st : ScanSt, scanGo opt st t = st := by
  intro t
  induction t with
  | nil => intro _ st; rfl
  | cons x rest ih =>
    intro hmem st
    have hx := hmem x (by simp)
    have hrest : ∀ y ∈ rest, y = "-Wno-unknown-warning-option" ∨
        y = "-Wno-unused-command-line-argument" ∨ y = "-disable-llvm-passes" :=
      fun y hy => hmem y (by simp [hy])
    rcases hx with hx | hx | hx <;> subst hx
    · rw [scanGo_single opt st _ rest (by decide) (by decide) (by decide) (by decide)
        (by decide) (by decide)]
      have hact : singleAct opt st "-Wno-unknown-warning-option" = st := by
        unfold singleAct
        rw [if_neg (by decide), if_neg (by decide), if_pos (by decide), if_pos (by decide)]
      rw [hact]
      exact ih hrest st
    · rw [scanGo_single opt st _ rest (by decide) (by decide) (by decide) (by decide)
        (by decide) (by decide)]
      have hact : singleAct opt st "-Wno-unused-command-line-argument" = st := by
        unfold singleAct
        rw [if_neg (by decide), if_neg (by decide), if_pos (by decide), if_pos (by decide)]
      rw [hact]
      exact ih hrest st
    · rw [scanGo_single opt st _ rest (by decide) (by decide) (by decide) (by decide)
        (by decide) (by decide)]
      have hact : singleAct opt st "-disable-llvm-passes" = st := by
        unfold singleAct
        rw [if_neg (by decide), if_neg (by decide), if_neg (by decide), if_neg (by decide)]
      rw [hact]
      exact ih hrest st
/-! ### Shape of single-token updates and prefix-conflict facts -/

theorem singleAct_out_cases (opt : String) (st : ScanSt) (a : String) :
    (singleAct opt st a).out = st.out ∨
    ((singleAct opt st a).out = st.out ++ [opt] ∧ a ∈ optLevels ∧ opt ∉ st.out) ∨
    ((singleAct opt st a).out = st.out ++ ["-g"] ∧ startswith a "-g" = true ∧
      "-g" ∉ st.out) ∨
    ((singleAct opt st a).out = st.out ++ [a] ∧ a ∉ optLevels ∧
      startswith a "-g" = false ∧
      (startswithAny a allowPrefixes = true ∨ startswithAny a archPrefixes = true)) := by
  unfold singleAct
  by_cases h1 : a ∈ optLevels
  · rw [if_pos h1]
    by_cases h2 : opt ∈ st.out
    · rw [if_pos h2]; left; rfl
    · rw [if_neg h2]; right; left; exact ⟨rfl, h1, h2⟩
  · rw [if_neg h1]
    by_cases hg : startswith a "-g" = true
    · rw [if_pos hg]
      by_cases hg0 : a = "-g0"
      · rw [if_pos hg0]; left; rfl
      · rw [if_neg hg0]
        by_cases hgin : "-g" ∈ st.out
        · rw [if_pos hgin]; left; rfl
        · rw [if_neg hgin]; right; right; left; exact ⟨rfl, hg, hgin⟩
    · rw [if_neg hg]
      replace hg : startswith a "-g" = false := by simpa using hg
      by_cases hal : startswithAny a allowPrefixes = true
      · rw [if_pos hal]
        by_cases hwn : startswithAny a wnoPrefixes = true
        · rw [if_pos hwn]; left; rfl
        · rw [if_neg hwn]; right; right; right; exact ⟨rfl, h1, hg, Or.inl hal⟩
      · rw [if_neg hal]
        by_cases har : startswithAny a archPrefixes = true
        · rw [if_pos har]; right; right; right; exact ⟨rfl, h1, hg, Or.inr har⟩
        · rw [if_neg har]; left; rfl

theorem singleAct_optFired (opt : String) (st : ScanSt) (a : String) :
    (singleAct opt st a).optFired = true ↔ (st.optFired = true ∨ a ∈ optLevels) := by
  unfold singleAct
  by_cases h1 : a ∈ optLevels
  · rw [if_pos h1]
    by_cases h2 : opt ∈ st.out
    · rw [if_pos h2]; simp [h1]
    · rw [if_neg h2]; simp [h1]
  · rw [if_neg h1]
    repeat' split
    all_goals simp [h1]

theorem singleAct_opt_mem (opt : String) (st : ScanSt) (a : String) (h : a ∈ optLevels) :
    opt ∈ (singleAct opt st a).out := by
  unfold singleAct
  rw [if_pos h]
  by_cases h2 : opt ∈ st.out
  · rw [if_pos h2]; exact h2
  · rw [if_neg h2]; simp

/-- Two prefixes of the same string are comparable; a token starting with
`-O` therefore matches no allow-list prefix (they all diverge at the second
character). -/
theorem startswith_O_not_allowAny {a : String} (h : startswith a "-O" = true) :
    startswithAny a allowPrefixes = false := by
  by_contra hcon
  rw [Bool.not_eq_false] at hcon
  simp only [startswithAny, List.any_eq_true] at hcon
  obtain ⟨p, hp, hpa⟩ := hcon
  simp only [startswith, List.isPrefixOf_iff_prefix] at h hpa
  rcases List.prefix_or_prefix_of_prefix h hpa with hc | hc <;>
    (fin_cases hp <;> revert hc <;> decide)

/-- A token starting with `-g` matches no allow-list prefix either. -/
theorem startswith_g_not_allowAny {a : String} (h : startswith a "-g" = true) :
    startswithAny a allowPrefixes = false := by
  by_contra hcon
  rw [Bool.not_eq_false] at hcon
  simp only [startswithAny, List.any_eq_true] at hcon
  obtain ⟨p, hp, hpa⟩ := hcon
  simp only [startswith, List.isPrefixOf_iff_prefix] at h hpa
  rcases List.prefix_or_prefix_of_prefix h hpa with hc | hc <;>
    (fin_cases hp <;> revert hc <;> decide)

/-- Any prefix of the deduplicated-append fold: it appends a sublist of the
supplied flags. -/
theorem foldl_dedup_append (fs : List String) :
    ∀ o : List String,
      ∃ t, fs.foldl (fun o f => if f ∈ o then o else o ++ [f]) o = o ++ t ∧
        ∀ x ∈ t, x ∈ fs := by
  induction fs with
  | nil => intro o; exact ⟨[], by simp, by simp⟩
  | cons f fs ih =>
    intro o
    simp only [List.foldl_cons]
    by_cases hf : f ∈ o
    · rw [if_pos hf]
      obtain ⟨t, ht, hmem⟩ := ih o
      exact ⟨t, ht, fun x hx => by simp [hmem x hx]⟩
    · rw [if_neg hf]
      obtain ⟨t, ht, hmem⟩ := ih (o ++ [f])
      refine ⟨f :: t, by simp [ht], fun x hx => ?_⟩
      rcases hx with _ | hx
      · simp
      · simp [hmem x (by assumption)]

theorem appendAnalysisFlags_sub (o : List String) :
    ∃ t, appendAnalysisFlags o = o ++ t ∧ ∀ x ∈ t, x ∈ analysis_flags :=
  foldl_dedup_append analysis_flags o
/-! ### Category tokens in the output are always keep-pair values (C3 core) -/

theorem kp_not_cat : ∀ a ∈ KEEP_PAIR,
    (is_flag_to_drop a || DEBUG_FLAGS.contains a) = false := by decide

theorem optLevels_not_cat : ∀ o ∈ optLevels,
    (is_flag_to_drop o || DEBUG_FLAGS.contains o) = false := by decide

theorem g_not_cat : (is_flag_to_drop "-g" || DEBUG_FLAGS.contains "-g") = false := by decide

theorem debug_starts_g : ∀ d ∈ DEBUG_FLAGS, startswith d "-g" = true := by decide

theorem scanGo_one (opt : String) (st : ScanSt) (a : String)
    (hm : a ≠ "-mllvm") (h1 : is_flag_to_drop a = false)
    (h2 : a ∉ DROP_SINGLE) (h3 : startswith a "-Wp," = false) (h4 : a ∉ DROP_PAIR) :
    scanGo opt st [a] = singleAct opt st a := by
  rw [scanGo.eq_def]
  simp [hm, h1, h2, h3, h4]

theorem singleAct_cat_inv (opt : String) (hopt : opt ∈ optLevels) (st : ScanSt) (a : String)
    (hfd : is_flag_to_drop a = false)
    (hInv : ∀ x ∈ st.out, (is_flag_to_drop x || DEBUG_FLAGS.contains x) = true →
      x ∈ st.pairs.map Prod.snd) :
    ∀ x ∈ (singleAct opt st a).out,
      (is_flag_to_drop x || DEBUG_FLAGS.contains x) = true →
        x ∈ (singleAct opt st a).pairs.map Prod.snd := by
  intro x hx hcat
  rw [singleAct_pairs]
  rcases singleAct_out_cases opt st a with hc | ⟨hc, hoa, -⟩ | ⟨hc, hg, -⟩ | ⟨hc, -, hgf, -⟩ <;>
    rw [hc] at hx
  · exact hInv x hx hcat
  · rcases List.mem_append.mp hx with hx | hx
    · exact hInv x hx hcat
    · rw [List.mem_singleton.mp hx] at hcat
      rw [optLevels_not_cat opt hopt] at hcat
      cases hcat
  · rcases List.mem_append.mp hx with hx | hx
    · exact hInv x hx hcat
    · rw [List.mem_singleton.mp hx] at hcat
      rw [g_not_cat] at hcat
      cases hcat
  · rcases List.mem_append.mp hx with hx | hx
    · exact hInv x hx hcat
    · rw [List.mem_singleton] at hx
      subst hx
      rw [hfd] at hcat
      simp only [Bool.false_or] at hcat
      have hg := debug_starts_g _ (by simpa [List.contains, List.elem_iff] using hcat)
      rw [hgf] at hg
      cases hg

theorem scan_cat_pairs (opt : String) (hopt : opt ∈ optLevels) :
    ∀ (n : Nat) (l : List String), l.length ≤ n → ∀ st : ScanSt,
      (∀ x ∈ st.out, (is_flag_to_drop x || DEBUG_FLAGS.contains x) = true →
          x ∈ st.pairs.map Prod.snd) →
      ∀ x ∈ (scanGo opt st l).out,
        (is_flag_to_drop x || DEBUG_FLAGS.contains x) = true →
          x ∈ (scanGo opt st l).pairs.map Prod.snd := by
  intro n
  induction n with
  | zero =>
    intro l hl st hInv
    have : l = [] := List.length_eq_zero.mp (Nat.le_zero.mp hl)
    subst this
    exact hInv
  | succ n ih =>
    intro l hl st hInv
    cases l with
    | nil => exact hInv
    | cons a rest =>
      have hrl : rest.length ≤ n := by simp at hl; omega
      have hrtl : rest.tail.length ≤ n := by
        have := List.length_tail rest
        omega
      by_cases hm : a = "-mllvm"
      · subst hm
        rw [scanGo_mllvm]
        exact ih rest.tail hrtl st hInv
      · by_cases hfd : is_flag_to_drop a = true
        · rw [scanGo_dropflag opt st a rest hm hfd]
          exact ih rest hrl st hInv
        · replace hfd : is_flag_to_drop a = false := by simpa using hfd
          by_cases hds : a ∈ DROP_SINGLE ∨ startswith a "-Wp," = true
          · rw [scanGo_dropsingle opt st a rest hm hfd hds]
            exact ih rest hrl st hInv
          · push_neg at hds
            obtain ⟨hds1, hds2⟩ := hds
            replace hds2 : startswith a "-Wp," = false := by simpa using hds2
            by_cases hdp : a ∈ DROP_PAIR
            · rw [scanGo_droppair opt st a rest hm hfd hds1 hds2 hdp]
              exact ih rest.tail hrtl st hInv
            · by_cases hk : a ∈ KEEP_PAIR
              · cases rest with
                | nil =>
                  rw [scanGo_one opt st a hm hfd hds1 hds2 hdp]
                  exact singleAct_cat_inv opt hopt st a hfd hInv
                | cons v r2 =>
                  rw [scanGo_pair opt st a v r2 hm hfd hds1 hds2 hdp hk]
                  apply ih r2 (by simp at hl; omega)
                  intro x hx hcat
                  rcases List.mem_append.mp hx with hx | hx
                  · have := hInv x hx hcat
                    simp only [List.map_append, List.mem_append]
                    exact Or.inl this
                  · simp only [List.mem_cons, List.mem_singleton,
                      List.not_mem_nil, or_false] at hx
                    rcases hx with rfl | rfl
                    · rw [kp_not_cat _ hk] at hcat
                      cases hcat
                    · simp
              · rw [scanGo_single opt st a rest hm hfd hds1 hds2 hdp hk]
                exact ih rest hrl _ (singleAct_cat_inv opt hopt st a hfd hInv)
/-! ### At-most-one optimization / debug flag in the output (C4/C7 core) -/

/-- Invariant: every `-O`-prefixed output token is the configured level and
occurs at most once; every `-g`-prefixed output token is the canonical `-g`
and occurs at most once; once the optimization branch fired, the configured
level is present. -/
def OutClean (opt : String) (st : ScanSt) : Prop :=
  (∀ x ∈ st.out, startswith x "-O" = true → x = opt) ∧
  st.out.count opt ≤ 1 ∧
  (∀ x ∈ st.out, startswith x "-g" = true → x = "-g") ∧
  st.out.count "-g" ≤ 1 ∧
  (st.optFired = true → opt ∈ st.out)

theorem kp_not_Og : ∀ a ∈ KEEP_PAIR,
    startswith a "-O" = false ∧ startswith a "-g" = false := by decide

theorem optLevels_starts_O : ∀ o ∈ optLevels, startswith o "-O" = true := by decide

theorem optLevels_not_starts_g : ∀ o ∈ optLevels, startswith o "-g" = false := by decide

theorem g_starts_g : startswith "-g" "-g" = true := by decide

theorem g_not_starts_O : startswith "-g" "-O" = false := by decide

theorem ne_of_startswith {x y p : String}
    (hx : startswith x p = false) (hy : startswith y p = true) : x ≠ y := by
  intro h
  subst h
  rw [hx] at hy
  cases hy

theorem count_append_singleton_ne {x y : String} {o : List String} (h : y ≠ x) :
    (o ++ [y]).count x = o.count x := by
  simp [List.count_append, List.count_singleton', h]

theorem count_append_singleton_eq {x : String} {o : List String} (h : x ∈ o → False) :
    (o ++ [x]).count x ≤ 1 := by
  have : o.count x = 0 := by
    rw [List.count_eq_zero]
    exact h
  simp [List.count_append, this]

theorem singleAct_clean (opt : String) (hopt : opt ∈ optLevels) (st : ScanSt) (a : String)
    (hInv : OutClean opt st) : OutClean opt (singleAct opt st a) := by
  obtain ⟨hO, hcO, hG, hcG, hF⟩ := hInv
  have hoptO : startswith opt "-O" = true := optLevels_starts_O opt hopt
  have hoptg : startswith opt "-g" = false := optLevels_not_starts_g opt hopt
  have hfired : (singleAct opt st a).optFired = true → opt ∈ (singleAct opt st a).out := by
    intro hf
    rcases (singleAct_optFired opt st a).mp hf with hf | hf
    · exact (singleAct_out_grows opt st a).subset (hF hf)
    · exact singleAct_opt_mem opt st a hf
  rcases singleAct_out_cases opt st a with hc | ⟨hc, -, hnin⟩ | ⟨hc, -, hnin⟩ |
      ⟨hc, hnopt, hgf, hpre⟩ <;> rw [OutClean, hc]
  · exact ⟨hO, hcO, hG, hcG, hc ▸ hfired⟩
  · refine ⟨?_, ?_, ?_, ?_, hc ▸ hfired⟩
    · intro x hx hsx
      rcases List.mem_append.mp hx with hx | hx
      · exact hO x hx hsx
      · exact List.mem_singleton.mp hx
    · exact count_append_singleton_eq hnin
    · intro x hx hsx
      rcases List.mem_append.mp hx with hx | hx
      · exact hG x hx hsx
      · rw [List.mem_singleton.mp hx] at hsx
        rw [hoptg] at hsx
        cases hsx
    · rw [count_append_singleton_ne (ne_of_startswith hoptg g_starts_g)]
      exact hcG
  · refine ⟨?_, ?_, ?_, ?_, hc ▸ hfired⟩
    · intro x hx hsx
      rcases List.mem_append.mp hx with hx | hx
      · exact hO x hx hsx
      · rw [List.mem_singleton.mp hx] at hsx
        rw [g_not_starts_O] at hsx
        cases hsx
    · rw [count_append_singleton_ne (ne_of_startswith g_not_starts_O hoptO)]
      exact hcO
    · intro x hx hsx
      rcases List.mem_append.mp hx with hx | hx
      · exact hG x hx hsx
      · exact List.mem_singleton.mp hx
    · exact count_append_singleton_eq hnin
  · have hal : startswithAny a allowPrefixes = true := hpre.elim id arch_imp_allow
    have haO : startswith a "-O" = false := by
      by_contra hcon
      rw [Bool.not_eq_false] at hcon
      rw [startswith_O_not_allowAny hcon] at hal
      cases hal
    refine ⟨?_, ?_, ?_, ?_, hc ▸ hfired⟩
    · intro x hx hsx
      rcases List.mem_append.mp hx with hx | hx
      · exact hO x hx hsx
      · rw [List.mem_singleton.mp hx, haO] at hsx
        cases hsx
    · rw [count_append_singleton_ne (ne_of_startswith haO hoptO)]
      exact hcO
    · intro x hx hsx
      rcases List.mem_append.mp hx with hx | hx
      · exact hG x hx hsx
      · rw [List.mem_singleton.mp hx, hgf] at hsx
        cases hsx
    · rw [count_append_singleton_ne (ne_of_startswith hgf g_starts_g)]
      exact hcG
theorem scan_clean (opt : String) (hopt : opt ∈ optLevels) :
    ∀ (n : Nat) (l : List String), l.length ≤ n → ∀ st : ScanSt,
      (∀ p ∈ (scanGo opt st l).pairs,
        startswith p.2 "-O" = false ∧ startswith p.2 "-g" = false) →
      OutClean opt st → OutClean opt (scanGo opt st l) := by
  intro n
  induction n with
  | zero =>
    intro l hl st _ hInv
    have : l = [] := List.length_eq_zero.mp (Nat.le_zero.mp hl)
    subst this
    exact hInv
  | succ n ih =>
    intro l hl st hPv hInv
    cases l with
    | nil => exact hInv
    | cons a rest =>
      have hrl : rest.length ≤ n := by simp at hl; omega
      have hrtl : rest.tail.length ≤ n := by
        have := List.length_tail rest
        omega
      by_cases hm : a = "-mllvm"
      · subst hm
        rw [scanGo_mllvm] at hPv ⊢
        exact ih rest.tail hrtl st hPv hInv
      · by_cases hfd : is_flag_to_drop a = true
        · rw [scanGo_dropflag opt st a rest hm hfd] at hPv ⊢
          exact ih rest hrl st hPv hInv
        · replace hfd : is_flag_to_drop a = false := by simpa using hfd
          by_cases hds : a ∈ DROP_SINGLE ∨ startswith a "-Wp," = true
          · rw [scanGo_dropsingle opt st a rest hm hfd hds] at hPv ⊢
            exact ih rest hrl st hPv hInv
          · push_neg at hds
            obtain ⟨hds1, hds2⟩ := hds
            replace hds2 : startswith a "-Wp," = false := by simpa using hds2
            by_cases hdp : a ∈ DROP_PAIR
            · rw [scanGo_droppair opt st a rest hm hfd hds1 hds2 hdp] at hPv ⊢
              exact ih rest.tail hrtl st hPv hInv
            · by_cases hk : a ∈ KEEP_PAIR
              · cases rest with
                | nil =>
                  rw [scanGo_one opt st a hm hfd hds1 hds2 hdp]
                  exact singleAct_clean opt hopt st a hInv
                | cons v r2 =>
                  rw [scanGo_pair opt st a v r2 hm hfd hds1 hds2 hdp hk] at hPv ⊢
                  set st2 : ScanSt :=
                    ⟨st.out ++ [a, v], st.pairs ++ [(a, v)], st.optFired, st.wrapperFired⟩
                    with hst2
                  have hav : (a, v) ∈ (scanGo opt st2 r2).pairs := by
                    have hmem : (a, v) ∈ st2.pairs := by simp [hst2]
                    exact (scanGo_pairs_grows opt st2 r2).subset hmem
                  obtain ⟨hvO, hvg⟩ := hPv (a, v) hav
                  apply ih r2 (by simp at hl; omega) st2 hPv
                  obtain ⟨hO, hcO, hG, hcG, hF⟩ := hInv
                  have hkOg := kp_not_Og a hk
                  have hoptO : startswith opt "-O" = true := optLevels_starts_O opt hopt
                  have haneo : a ≠ opt := ne_of_startswith hkOg.1 hoptO
                  have hvneo : v ≠ opt := ne_of_startswith hvO hoptO
                  have haneg : a ≠ "-g" := ne_of_startswith hkOg.2 g_starts_g
                  have hvneg : v ≠ "-g" := ne_of_startswith hvg g_starts_g
                  refine ⟨?_, ?_, ?_, ?_, ?_⟩
                  · intro x hx hsx
                    simp only [hst2] at hx
                    rcases List.mem_append.mp hx with hx | hx
                    · exact hO x hx hsx
                    · simp only [List.mem_cons, List.mem_singleton,
                        List.not_mem_nil, or_false] at hx
                      rcases hx with rfl | rfl
                      · rw [hkOg.1] at hsx; cases hsx
                      · rw [hvO] at hsx; cases hsx
                  · show List.count opt st2.out ≤ 1
                    rw [hst2]
                    simp only [List.count_append, List.count_cons, List.count_nil,
                      beq_iff_eq]
                    simp [haneo, hvneo]
                    exact hcO
                  · intro x hx hsx
                    simp only [hst2] at hx
                    rcases List.mem_append.mp hx with hx | hx
                    · exact hG x hx hsx
                    · simp only [List.mem_cons, List.mem_singleton,
                        List.not_mem_nil, or_false] at hx
                      rcases hx with rfl | rfl
                      · rw [hkOg.2] at hsx; cases hsx
                      · rw [hvg] at hsx; cases hsx
                  · show List.count "-g" st2.out ≤ 1
                    rw [hst2]
                    simp only [List.count_append, List.count_cons, List.count_nil,
                      beq_iff_eq]
                    simp [haneg, hvneg]
                    exact hcG
                  · intro hfr
                    have : st.optFired = true := hfr
                    have := hF this
                    simp only [hst2]
                    exact List.mem_append.mpr (Or.inl this)
              · rw [scanGo_single opt st a rest hm hfd hds1 hds2 hdp hk] at hPv ⊢
                exact ih rest hrl _ hPv (singleAct_clean opt hopt st a hInv)
/-! ### Keep-pair couples are contiguous in both input and output (C6 core) -/

theorem scan_pairs_spec (opt : String) :
    ∀ (n : Nat) (l : List String), l.length ≤ n → ∀ st : ScanSt,
      ∀ p ∈ (scanGo opt st l).pairs, p ∈ st.pairs ∨
        (p.1 ∈ KEEP_PAIR ∧ List.IsInfix [p.1, p.2] l ∧
          List.IsInfix [p.1, p.2] (scanGo opt st l).out) := by
  intro n
  induction n with
  | zero =>
    intro l hl st p hp
    have : l = [] := List.length_eq_zero.mp (Nat.le_zero.mp hl)
    subst this
    exact Or.inl hp
  | succ n ih =>
    intro l hl st p hp
    cases l with
    | nil => exact Or.inl hp
    | cons a rest =>
      have hrl : rest.length ≤ n := by simp at hl; omega
      have hrtl : rest.tail.length ≤ n := by
        have := List.length_tail rest
        omega
      have infix_tail : ∀ q : List String, List.IsInfix q rest.tail →
          List.IsInfix q (a :: rest) := by
        intro q hq
        cases rest with
        | nil =>
          have hq0 : q = [] := by simpa using hq
          subst hq0
          simp
        | cons b r2 =>
          exact (hq.trans (List.tail_suffix (b :: r2)).isInfix).trans
            (List.suffix_cons a (b :: r2)).isInfix
      have infix_rest : ∀ q : List String, List.IsInfix q rest →
          List.IsInfix q (a :: rest) := by
        intro q hq
        exact hq.trans (List.suffix_cons a rest).isInfix
      by_cases hm : a = "-mllvm"
      · subst hm
        rw [scanGo_mllvm] at hp ⊢
        rcases ih rest.tail hrtl st p hp with h | ⟨h1, h2, h3⟩
        · exact Or.inl h
        · exact Or.inr ⟨h1, infix_tail _ h2, h3⟩
      · by_cases hfd : is_flag_to_drop a = true
        · rw [scanGo_dropflag opt st a rest hm hfd] at hp ⊢
          rcases ih rest hrl st p hp with h | ⟨h1, h2, h3⟩
          · exact Or.inl h
          · exact Or.inr ⟨h1, infix_rest _ h2, h3⟩
        · replace hfd : is_flag_to_drop a = false := by simpa using hfd
          by_cases hds : a ∈ DROP_SINGLE ∨ startswith a "-Wp," = true
          · rw [scanGo_dropsingle opt st a rest hm hfd hds] at hp ⊢
            rcases ih rest hrl st p hp with h | ⟨h1, h2, h3⟩
            · exact Or.inl h
            · exact Or.inr ⟨h1, infix_rest _ h2, h3⟩
          · push_neg at hds
            obtain ⟨hds1, hds2⟩ := hds
            replace hds2 : startswith a "-Wp," = false := by simpa using hds2
            by_cases hdp : a ∈ DROP_PAIR
            · rw [scanGo_droppair opt st a rest hm hfd hds1 hds2 hdp] at hp ⊢
              rcases ih rest.tail hrtl st p hp with h | ⟨h1, h2, h3⟩
              · exact Or.inl h
              · exact Or.inr ⟨h1, infix_tail _ h2, h3⟩
            · by_cases hk : a ∈ KEEP_PAIR
              · cases rest with
                | nil =>
                  rw [scanGo_one opt st a hm hfd hds1 hds2 hdp] at hp ⊢
                  rw [singleAct_pairs] at hp
                  exact Or.inl hp
                | cons v r2 =>
                  rw [scanGo_pair opt st a v r2 hm hfd hds1 hds2 hdp hk] at hp ⊢
                  set st2 : ScanSt :=
                    ⟨st.out ++ [a, v], st.pairs ++ [(a, v)], st.optFired, st.wrapperFired⟩
                    with hst2
                  rcases ih r2 (by simp at hl; omega) st2 p hp with h | ⟨h1, h2, h3⟩
                  · rcases (by simpa [hst2] using h : p ∈ st.pairs ∨ p = (a, v)) with h | h
                    · exact Or.inl h
                    · subst h
                      refine Or.inr ⟨hk, ?_, ?_⟩
                      · exact ⟨[], r2, by simp⟩
                      · have hin : List.IsInfix [a, v] st2.out := by
                          rw [hst2]
                          exact ⟨st.out, [], by simp⟩
                        exact hin.trans (scanGo_out_grows opt st2 r2).isInfix
                  · refine Or.inr ⟨h1, ?_, h3⟩
                    exact (h2.trans (List.suffix_cons v r2).isInfix).trans
                      (List.suffix_cons a (v :: r2)).isInfix
              · rw [scanGo_single opt st a rest hm hfd hds1 hds2 hdp hk] at hp ⊢
                rcases ih rest hrl (singleAct opt st a) p hp with h | ⟨h1, h2, h3⟩
                · rw [singleAct_pairs] at h
                  exact Or.inl h
                · exact Or.inr ⟨h1, infix_rest _ h2, h3⟩

/-! ### Counters of the run -/

theorem compile_success_count (cfg : Cfg) (sys : Sys) :
    ∀ (entries : List Entry) (t : Totals),
      (entries.foldl (fun t e => addStep t (recordStep cfg sys e)) t).success =
        t.success +
          (entries.filter (fun e => (recordStep cfg sys e).succeeded)).length := by
  intro entries
  induction entries with
  | nil => intro t; simp
  | cons e es ih =>
    intro t
    rw [List.foldl_cons, ih, List.filter_cons]
    by_cases h : (recordStep cfg sys e).succeeded = true
    · simp [addStep, h]
      omega
    · replace h : (recordStep cfg sys e).succeeded = false := by simpa using h
      simp [addStep, h]
/-! ## Concrete run configurations used by counterexamples and witnesses -/

/-- The default configuration of the script (`CLANG=clang`, empty `TARGET`,
`OPTIMIZATION=-O0`). -/
def cfgDemo : Cfg := ⟨"clang", "", "-O0"⟩

/-- A system where only `/w/a.c` exists and every compile succeeds. -/
def sysDemo : Sys :=
  ⟨fun _ => [], fun p => p == "/w/a.c", fun _ => 0, fun _ _ => RunRes.ok⟩

/-- A system where `/w/a.c` exists and an artifact `/w/a.bc` exists with a
strictly newer modification time than the source. -/
def sysUpToDate : Sys :=
  ⟨fun _ => [], fun p => p == "/w/a.c" || p == "/w/a.bc",
   fun p => if p == "/w/a.bc" then 100 else 1, fun _ _ => RunRes.ok⟩

/-- The same system with all modification times changed. -/
def sysUpToDateAltTimes : Sys :=
  ⟨fun _ => [], fun p => p == "/w/a.c" || p == "/w/a.bc",
   fun _ => 0, fun _ _ => RunRes.ok⟩

/-- An in-scope record whose source `/w/a.c` exists. -/
def entryOk : Entry := ⟨"/w", some ["cc", "-c", "-D__KERNEL__", "a.c"], ""⟩

/-- An in-scope record whose source `/w/b.c` does not exist. -/
def entryMissing : Entry := ⟨"/w", some ["cc", "-c", "-D__KERNEL__", "b.c"], ""⟩

instance noBareKP_dec (l : List String) : Decidable (noBareKP l) :=
  match h : l.getLast? with
  | none => isTrue (by intro x hx; rw [h] at hx; cases hx)
  | some y =>
    if hy : y ∈ KEEP_PAIR then
      isFalse (by intro hn; exact hn y h hy)
    else
      isTrue (by
        intro x hx
        rw [h] at hx
        injection hx with hxy
        rw [← hxy]
        exact hy)

/-! ## C10 -/

/-- C10: the left-to-right scan of `filter_flags_for_analysis` terminates
within `length args` iterations and never reads past the final token: the
loop in which every subscript access is a checked read (and exhausted fuel
yields `none`) returns exactly the unchecked loop's state.  In particular
the pair-dropping branches (`-mllvm`, `DROP_PAIR`) skip without reading
`args[i+1]`, and the keep-pair branch reads it only under its
`i + 1 < len(args)` guard. -/
theorem scan_total_and_in_bounds (opt : String) (args : List String) :
    checkedEngineScan opt args = some (engineScan opt args) := by
  rw [checkedEngineScan, engineScan]
  rw [checkedFilterLoop_eq_scanGo opt args (args.length + 1) 1 ⟨[], [], false, false⟩
      (by omega) (by omega)]
  rw [filterLoopIdx_eq_scanGo opt args args.length 1 ⟨[], [], false, false⟩
      (by omega) (by omega)]

/-! ## C8 -/

/-- C8 counterexample: scanning a token sequence whose tokens include the
wrapper name `ccache` and the bare compiler name `gcc` performs no
substitution: the wrapper branch never fires, the configured compiler name
`clang` appears nowhere in the output, and the result is identical to the
scan of the sequence with the two toolchain tokens deleted (they fall
through to the implicit drop). -/
theorem wrapper_substitution_counterexample :
    (engineScan "-O0" ["cc", "ccache", "gcc", "-O2"]).wrapperFired = false ∧
    "clang" ∉ filter_flags_for_analysis "-O0" ["cc", "ccache", "gcc", "-O2"] ∧
    filter_flags_for_analysis "-O0" ["cc", "ccache", "gcc", "-O2"] =
      filter_flags_for_analysis "-O0" ["cc", "-O2"] := by decide

/-- C8 (amended): the wrapper-handling branch of the scan is dead code: it
is guarded by `i == 0` but the scan starts at `i = 1` and the index only
grows, so for every input and configuration it never fires; wrapper names
and bare compiler names at scanned positions are never substituted (they
are implicitly dropped). -/
theorem wrapper_branch_never_fires (opt : String) (args : List String) :
    (engineScan opt args).wrapperFired = false := by
  rw [engineScan_eq_scanGo, scanGo_wrapperFired]

/-! ## C1 -/

/-- C1 counterexample: the exit status is not "failure iff failed records
outnumber successes".  With zero records (`failed = 0 ≤ success = 0`) the
process exits 1, and with one success and two failures
(`failed = 2 > success = 1`) it exits 0 — both opposite to the claim. -/
theorem exit_status_spec_counterexample :
    mainExitCode cfgDemo sysDemo [] = 1 ∧
    (compile_directly cfgDemo sysDemo [entryOk, entryMissing, entryMissing]).success = 1 ∧
    (compile_directly cfgDemo sysDemo [entryOk, entryMissing, entryMissing]).failed = 2 ∧
    mainExitCode cfgDemo sysDemo [entryOk, entryMissing, entryMissing] = 0 := by decide

/-- C1 (amended): the process exit status is 0 if and only if at least one
record compiled successfully (`return 0 if success > 0 else 1`): the
failure count is irrelevant, and a run over zero records exits non-zero. -/
theorem exit_zero_iff_some_success (cfg : Cfg) (sys : Sys) (entries : List Entry) :
    mainExitCode cfg sys entries = 0 ↔
      ∃ e ∈ entries, (recordStep cfg sys e).succeeded = true := by
  rw [mainExitCode]
  have hc := compile_success_count cfg sys entries ⟨0, 0, 0, []⟩
  rw [compile_directly] at *
  rw [hc]
  simp only [Nat.zero_add]
  constructor
  · intro h
    by_cases hp : 0 < (entries.filter (fun e => (recordStep cfg sys e).succeeded)).length
    · obtain ⟨e, he⟩ := List.exists_mem_of_length_pos hp
      exact ⟨e, (List.mem_filter.mp he).1, by simpa using (List.mem_filter.mp he).2⟩
    · rw [if_neg (by omega)] at h
      cases h
  · intro ⟨e, he, hs⟩
    have : e ∈ entries.filter (fun e => (recordStep cfg sys e).succeeded) :=
      List.mem_filter.mpr ⟨he, by simpa using hs⟩
    rw [if_pos (by have := List.length_pos_of_mem this; omega)]
/-! ## C2 -/

/-- C2 counterexample: with an artifact already on disk whose modification
time (100) exceeds the source's (1), the record is not skipped: a compiler
subprocess is invoked anyway (the script prints "force recompile all files"
and performs no timestamp comparison), and the run has no skipped/up-to-date
counter at all. -/
theorem incremental_gate_counterexample :
    sysUpToDate.fsExists "/w/a.bc" = true ∧
    sysUpToDate.fsMtime "/w/a.c" ≤ sysUpToDate.fsMtime "/w/a.bc" ∧
    (recordStep cfgDemo sysUpToDate entryOk).invoked ≠ [] := by decide

/-- C2 (amended): there is no incremental gate.  The outcome of a record
never depends on any modification time (two systems agreeing on tokenizer,
file existence and subprocess behaviour — but with arbitrarily different
mtimes — process every record identically), and every in-scope record whose
source exists triggers exactly one compiler invocation, artifact or not;
hence a second run over an unchanged database repeats every invocation
instead of performing zero. -/
theorem no_incremental_gate (cfg : Cfg) (sys sys' : Sys) (e : Entry) (src : String)
    (htok : sys.tok = sys'.tok) (hex : sys.fsExists = sys'.fsExists)
    (hrun : sys.run = sys'.run)
    (h1 : norm_args sys.tok e ≠ [])
    (h2 : is_c_compile (norm_args sys.tok e) = true)
    (h3 : "-D__KERNEL__" ∈ norm_args sys.tok e)
    (h4 : pick_src (norm_args sys.tok e) = some src)
    (h5 : sys.fsExists (if isAbs src = true then src else joinP e.directory src) = true) :
    recordStep cfg sys e = recordStep cfg sys' e ∧
    (recordStep cfg sys e).invoked.length = 1 := by
  constructor
  · obtain ⟨t1, e1, m1, r1⟩ := sys
    obtain ⟨t2, e2, m2, r2⟩ := sys'
    simp only at htok hex hrun
    subst htok hex hrun
    rfl
  · rw [recordStep]
    rw [if_neg (by rintro (hc | hc); exacts [h1 hc, by rw [h2] at hc; cases hc])]
    rw [if_neg (not_not_intro h3), h4]
    simp only
    rw [if_neg (by rw [h5]; intro hc; cases hc)]
    cases hr : sys.run ([cfg.clang] ++ (if cfg.target ≠ "" then ["--target=" ++ cfg.target] else [])
        ++ ["-emit-llvm", "-c", src, "-o",
            if isAbs src = true then withSuffixBC src
            else joinP e.directory (withSuffixBC src)]
        ++ filter_flags_for_analysis cfg.opt (norm_args sys.tok e)) e.directory <;>
      simp [hr]
  
/-- C2 witness at a concrete system: the record for `/w/a.c` behaves
identically under two mtime assignments and performs one invocation. -/
theorem no_incremental_gate_witness :
    recordStep cfgDemo sysUpToDate entryOk = recordStep cfgDemo sysUpToDateAltTimes entryOk ∧
    (recordStep cfgDemo sysUpToDate entryOk).invoked.length = 1 :=
  no_incremental_gate cfgDemo sysUpToDate sysUpToDateAltTimes entryOk "a.c"
    rfl rfl rfl (by decide) (by decide) (by decide) (by decide) (by decide)

/-! ## C9 -/

/-- C9: an in-scope record whose resolved source path does not exist is
counted (total and failed both increment), never reaches the subprocess
runner (zero invocations), and the pass continues: a database
`pre ++ [e] ++ post` still folds over every record of `post`. -/
theorem missing_source_fails_locally (cfg : Cfg) (sys : Sys) (e : Entry) (src : String)
    (h1 : norm_args sys.tok e ≠ [])
    (h2 : is_c_compile (norm_args sys.tok e) = true)
    (h3 : "-D__KERNEL__" ∈ norm_args sys.tok e)
    (h4 : pick_src (norm_args sys.tok e) = some src)
    (h5 : sys.fsExists (if isAbs src = true then src else joinP e.directory src) = false) :
    recordStep cfg sys e = ⟨true, false, true, []⟩ ∧
    ∀ (pre post : List Entry),
      compile_directly cfg sys (pre ++ e :: post) =
        post.foldl (fun t e2 => addStep t (recordStep cfg sys e2))
          (addStep (compile_directly cfg sys pre) ⟨true, false, true, []⟩) := by
  have hstep : recordStep cfg sys e = ⟨true, false, true, []⟩ := by
    rw [recordStep]
    rw [if_neg (by rintro (hc | hc); exacts [h1 hc, by rw [h2] at hc; cases hc])]
    rw [if_neg (not_not_intro h3), h4]
    simp only
    rw [if_pos h5]
  refine ⟨hstep, fun pre post => ?_⟩
  rw [compile_directly, compile_directly, List.foldl_append, List.foldl_cons, hstep]

/-- C9 witness: the concrete record for the absent `/w/b.c`. -/
theorem missing_source_fails_locally_witness :
    recordStep cfgDemo sysDemo entryMissing = ⟨true, false, true, []⟩ ∧
    compile_directly cfgDemo sysDemo ([entryOk] ++ entryMissing :: [entryOk]) =
      [entryOk].foldl (fun t e2 => addStep t (recordStep cfgDemo sysDemo e2))
        (addStep (compile_directly cfgDemo sysDemo [entryOk]) ⟨true, false, true, []⟩) := by
  have h := missing_source_fails_locally cfgDemo sysDemo entryMissing "b.c"
    (by decide) (by decide) (by decide) (by decide) (by decide)
  exact ⟨h.1, h.2 [entryOk] [entryOk]⟩
/-! ## C3 -/

theorem analysis_not_cat : ∀ f ∈ analysis_flags,
    (is_flag_to_drop f || DEBUG_FLAGS.contains f) = false := by decide

theorem analysis_not_Og : ∀ f ∈ analysis_flags,
    startswith f "-O" = false ∧ startswith f "-g" = false := by decide

theorem analysis_not_opt : ∀ f ∈ analysis_flags, f ∉ optLevels := by decide

/-- C3 counterexample: the input contains the sanitizer flag
`-fsanitize=address` (an instrumentation-category token), yet the output
contains a token of that category — the flag survives verbatim as the
retained value of the keep-pair flag `-I` — refuting "the output contains
zero tokens matching that category". -/
theorem instrumentation_zero_tokens_counterexample :
    ("-fsanitize=address" ∈ (["cc", "-I", "-fsanitize=address"] : List String).drop 1 ∧
      is_flag_to_drop "-fsanitize=address" = true) ∧
    ¬(∀ t ∈ filter_flags_for_analysis "-O0" ["cc", "-I", "-fsanitize=address"],
        (is_flag_to_drop t || DEBUG_FLAGS.contains t) = false) := by decide

/-- C3 (amended): every instrumentation-category token (the sanitizer,
profiling and stack-protection exact sets, the recognized instrumentation
prefixes, or the split-debug-info set) that appears in the engine's output
was retained as the immediately-following value of a keep-pair flag;
tokens scanned at flag positions of that category are always dropped. -/
theorem instrumentation_dropped_except_pair_values (opt : String) (args : List String)
    (hopt : opt ∈ optLevels) :
    ∀ t ∈ filter_flags_for_analysis opt args,
      (is_flag_to_drop t || DEBUG_FLAGS.contains t) = true →
        t ∈ (enginePairs opt args).map Prod.snd := by
  intro t ht hcat
  rw [filter_flags_for_analysis] at ht
  obtain ⟨tl, htl, hsub⟩ := appendAnalysisFlags_sub (engineScan opt args).out
  rw [htl] at ht
  rcases List.mem_append.mp ht with ht | ht
  · rw [engineScan_eq_scanGo] at ht
    rw [enginePairs, engineScan_eq_scanGo]
    exact scan_cat_pairs opt hopt (args.drop 1).length (args.drop 1) le_rfl
      ⟨[], [], false, false⟩ (by intro x hx _; exact absurd hx (List.not_mem_nil x))
      t ht hcat
  · rw [analysis_not_cat t (hsub t ht)] at hcat
    cases hcat

/-- C3 witness: at the counterexample input the surviving sanitizer token is
indeed a keep-pair value. -/
theorem instrumentation_dropped_except_pair_values_witness :
    ("-O0" : String) ∈ optLevels ∧
    "-fsanitize=address" ∈
      (enginePairs "-O0" ["cc", "-I", "-fsanitize=address"]).map Prod.snd :=
  ⟨by decide, instrumentation_dropped_except_pair_values "-O0"
    ["cc", "-I", "-fsanitize=address"] (by decide) "-fsanitize=address"
    (by decide) (by decide)⟩

/-! ## C7 -/

theorem length_filter_le_of_all_eq {l : List String} {p : String → Bool} {c : String}
    (hall : ∀ x ∈ l, p x = true → x = c) (hcount : l.count c ≤ 1) :
    (l.filter p).length ≤ 1 := by
  have hsub2 : ∀ x ∈ l.filter p, c = x := fun x hx =>
    (hall x (List.mem_filter.mp hx).1 (List.mem_filter.mp hx).2).symm
  have h1 : (l.filter p).count c = (l.filter p).length := List.count_eq_length.mpr hsub2
  have h2 : (l.filter p).count c ≤ l.count c := (List.filter_sublist l).count_le c
  omega

/-- The output of the full engine satisfies the cleanliness invariant when
the configured level is recognized and no keep-pair value is `-O`- or
`-g`-prefixed. -/
theorem engine_outclean (opt : String) (args : List String)
    (hopt : opt ∈ optLevels)
    (hpv : ∀ p ∈ enginePairs opt args,
      startswith p.2 "-O" = false ∧ startswith p.2 "-g" = false) :
    OutClean opt (engineScan opt args) := by
  rw [enginePairs, engineScan_eq_scanGo] at hpv
  rw [engineScan_eq_scanGo]
  refine scan_clean opt hopt (args.drop 1).length (args.drop 1) le_rfl
    ⟨[], [], false, false⟩ hpv ?_
  refine ⟨fun x hx => absurd hx (List.not_mem_nil x), by simp,
    fun x hx => absurd hx (List.not_mem_nil x), by simp, by simp⟩

/-- C7 counterexample: an optimization flag retained as the value of the
keep-pair flag `-I` plus the rewritten canonical level give the output two
`-O` tokens. -/
theorem at_most_one_opt_flag_counterexample :
    ¬(((filter_flags_for_analysis "-O0" ["cc", "-I", "-O2", "-O3"]).filter
        (fun x => startswith x "-O")).length ≤ 1) := by decide

/-- C7 (amended): provided no `-O`- or `-g`-prefixed token is retained as a
keep-pair value, the engine's output contains at most one
optimization-level (`-O`-prefixed) token and at most one debug-info
(`-g`-prefixed) token; every `-g`-prefixed output token is the canonical
`-g`, and `-g0` never appears. -/
theorem at_most_one_opt_debug_flag (opt : String) (args : List String)
    (hopt : opt ∈ optLevels)
    (hpv : ∀ p ∈ enginePairs opt args,
      startswith p.2 "-O" = false ∧ startswith p.2 "-g" = false) :
    ((filter_flags_for_analysis opt args).filter (fun x => startswith x "-O")).length ≤ 1 ∧
    ((filter_flags_for_analysis opt args).filter (fun x => startswith x "-g")).length ≤ 1 ∧
    (∀ x ∈ filter_flags_for_analysis opt args, startswith x "-g" = true → x = "-g") ∧
    "-g0" ∉ filter_flags_for_analysis opt args := by
  obtain ⟨hO, hcO, hG, hcG, hF⟩ := engine_outclean opt args hopt hpv
  obtain ⟨tl, htl, hsub⟩ := appendAnalysisFlags_sub (engineScan opt args).out
  have hfl : filter_flags_for_analysis opt args = (engineScan opt args).out ++ tl := by
    rw [filter_flags_for_analysis, htl]
  have htlO : tl.filter (fun x => startswith x "-O") = [] :=
    List.filter_eq_nil_iff.mpr fun x hx => by
      rw [(analysis_not_Og x (hsub x hx)).1]
      simp
  have htlG : tl.filter (fun x => startswith x "-g") = [] :=
    List.filter_eq_nil_iff.mpr fun x hx => by
      rw [(analysis_not_Og x (hsub x hx)).2]
      simp
  have hGall : ∀ x ∈ filter_flags_for_analysis opt args,
      startswith x "-g" = true → x = "-g" := by
    intro x hx hsx
    rw [hfl] at hx
    rcases List.mem_append.mp hx with hx | hx
    · exact hG x hx hsx
    · rw [(analysis_not_Og x (hsub x hx)).2] at hsx
      cases hsx
  refine ⟨?_, ?_, hGall, ?_⟩
  · rw [hfl, List.filter_append, htlO, List.append_nil]
    exact length_filter_le_of_all_eq hO hcO
  · rw [hfl, List.filter_append, htlG, List.append_nil]
    exact length_filter_le_of_all_eq hG hcG
  · intro hmem
    have := hGall "-g0" hmem (by decide)
    exact absurd this (by decide)

/-- C7 witness: a record with duplicated and conflicting debug and
optimization flags. -/
theorem at_most_one_opt_debug_flag_witness :
    (("-O0" : String) ∈ optLevels ∧
      (∀ p ∈ enginePairs "-O0" ["cc", "-g", "-gdwarf-5", "-O2", "-O3", "-g0", "-DX"],
        startswith p.2 "-O" = false ∧ startswith p.2 "-g" = false)) ∧
    (((filter_flags_for_analysis "-O0" ["cc", "-g", "-gdwarf-5", "-O2", "-O3", "-g0", "-DX"]).filter
        (fun x => startswith x "-O")).length ≤ 1 ∧
      ((filter_flags_for_analysis "-O0" ["cc", "-g", "-gdwarf-5", "-O2", "-O3", "-g0", "-DX"]).filter
        (fun x => startswith x "-g")).length ≤ 1 ∧
      (∀ x ∈ filter_flags_for_analysis "-O0" ["cc", "-g", "-gdwarf-5", "-O2", "-O3", "-g0", "-DX"],
        startswith x "-g" = true → x = "-g") ∧
      "-g0" ∉ filter_flags_for_analysis "-O0" ["cc", "-g", "-gdwarf-5", "-O2", "-O3", "-g0", "-DX"]) :=
  ⟨⟨by decide, by decide⟩,
    at_most_one_opt_debug_flag "-O0" ["cc", "-g", "-gdwarf-5", "-O2", "-O3", "-g0", "-DX"]
      (by decide) (by decide)⟩

/-! ## C4 -/

/-- C4 counterexample: the input contains the optimization-level flag `-O2`,
but it is consumed as the value of the keep-pair flag `-I`: no rewrite is
triggered (the configured level appears zero times, not once) and the
original occurrence survives. -/
theorem optimization_exactly_once_counterexample :
    ("-O2" ∈ (["cc", "-I", "-O2"] : List String).drop 1 ∧ "-O2" ∈ optLevels) ∧
    ¬((filter_flags_for_analysis "-O0" ["cc", "-I", "-O2"]).count "-O0" = 1 ∧
      ∀ x ∈ filter_flags_for_analysis "-O0" ["cc", "-I", "-O2"],
        startswith x "-O" = true → x = "-O0") := by decide

/-- C4 (amended): whenever the optimization-rewrite branch is actually
reached (an optimization-level flag is scanned at a flag position, not
consumed as the argument of `-mllvm`, a drop-pair flag or a keep-pair
flag), and no keep-pair value is `-O`- or `-g`-prefixed, the output
contains the configured level exactly once and no other `-O` token. -/
theorem optimization_rewritten_once (opt : String) (args : List String)
    (hopt : opt ∈ optLevels)
    (hpv : ∀ p ∈ enginePairs opt args,
      startswith p.2 "-O" = false ∧ startswith p.2 "-g" = false)
    (hfired : (engineScan opt args).optFired = true) :
    (filter_flags_for_analysis opt args).count opt = 1 ∧
    ∀ x ∈ filter_flags_for_analysis opt args, startswith x "-O" = true → x = opt := by
  obtain ⟨hO, hcO, hG, hcG, hF⟩ := engine_outclean opt args hopt hpv
  obtain ⟨tl, htl, hsub⟩ := appendAnalysisFlags_sub (engineScan opt args).out
  have hfl : filter_flags_for_analysis opt args = (engineScan opt args).out ++ tl := by
    rw [filter_flags_for_analysis, htl]
  have hmem : opt ∈ (engineScan opt args).out := hF hfired
  have hpos : 0 < (engineScan opt args).out.count opt := by
    rw [List.count_pos_iff]
    exact hmem
  have htl0 : tl.count opt = 0 := by
    rw [List.count_eq_zero]
    intro hc
    exact analysis_not_opt opt (hsub opt hc) hopt
  constructor
  · rw [hfl, List.count_append, htl0]
    omega
  · intro x hx hsx
    rw [hfl] at hx
    rcases List.mem_append.mp hx with hx | hx
    · exact hO x hx hsx
    · rw [(analysis_not_Og x (hsub x hx)).1] at hsx
      cases hsx

/-- C4 witness: two optimization flags at flag positions are rewritten into
exactly one configured `-O0`. -/
theorem optimization_rewritten_once_witness :
    (("-O0" : String) ∈ optLevels ∧
      (engineScan "-O0" ["cc", "-D__KERNEL__", "-O2", "-O3"]).optFired = true) ∧
    ((filter_flags_for_analysis "-O0" ["cc", "-D__KERNEL__", "-O2", "-O3"]).count "-O0" = 1 ∧
      ∀ x ∈ filter_flags_for_analysis "-O0" ["cc", "-D__KERNEL__", "-O2", "-O3"],
        startswith x "-O" = true → x = "-O0") :=
  ⟨⟨by decide, by decide⟩,
    optimization_rewritten_once "-O0" ["cc", "-D__KERNEL__", "-O2", "-O3"]
      (by decide) (by decide) (by decide)⟩
/-! ## C6 -/

/-- C6 counterexample: in `["cc", "-I", "-include", "foo"]` the keep-pair
flag `-include` is consumed as the *value* of `-I` and is retained in the
output, but the token following it in the output is the appended
warning-suppression flag, not its input successor `foo` — refuting "for
every retained keep-pair flag the immediately following value token is
present and unchanged from the input". -/
theorem keep_pair_never_split_counterexample :
    ¬(∀ j, j < (filter_flags_for_analysis "-O0" ["cc", "-I", "-include", "foo"]).length →
      ∀ i, i < (["cc", "-I", "-include", "foo"] : List String).length →
        (filter_flags_for_analysis "-O0" ["cc", "-I", "-include", "foo"]).getD j "" ∈ KEEP_PAIR →
        (["cc", "-I", "-include", "foo"] : List String).getD i "" =
          (filter_flags_for_analysis "-O0" ["cc", "-I", "-include", "foo"]).getD j "" →
        (filter_flags_for_analysis "-O0" ["cc", "-I", "-include", "foo"]).get? (j + 1) =
          (["cc", "-I", "-include", "foo"] : List String).get? (i + 1)) := by decide

/-- C6 (amended): every (flag, value) couple retained by the keep-pair rule
travels together: the flag is a keep-pair flag, the two tokens are adjacent
in the input, and they are adjacent (in the same order) in the engine's
output.  A keep-pair flag can additionally reach the output as another
keep-pair flag's value or as a bare trailing token, and only then does it
carry no adjacency guarantee. -/
theorem keep_pair_blocks_contiguous (opt : String) (args : List String) :
    ∀ p ∈ enginePairs opt args, p.1 ∈ KEEP_PAIR ∧
      List.IsInfix [p.1, p.2] args ∧
      List.IsInfix [p.1, p.2] (filter_flags_for_analysis opt args) := by
  intro p hp
  rw [enginePairs, engineScan_eq_scanGo] at hp
  rcases scan_pairs_spec opt (args.drop 1).length (args.drop 1) le_rfl
      ⟨[], [], false, false⟩ p hp with h | ⟨h1, h2, h3⟩
  · exact absurd h (List.not_mem_nil p)
  · refine ⟨h1, ?_, ?_⟩
    · exact h2.trans (List.drop_suffix 1 args).isInfix
    · rw [filter_flags_for_analysis]
      obtain ⟨tl, htl, -⟩ := appendAnalysisFlags_sub (engineScan opt args).out
      rw [htl, engineScan_eq_scanGo]
      exact h3.trans (List.prefix_append _ tl).isInfix

/-- C6 witness: the pair (`-I`, `inc`) is recorded and adjacent in both the
input and the output. -/
theorem keep_pair_blocks_contiguous_witness :
    ("-I", "inc") ∈ enginePairs "-O0" ["cc", "-I", "inc", "-DX"] ∧
    (("-I", "inc").1 ∈ KEEP_PAIR ∧
      List.IsInfix [("-I", "inc").1, ("-I", "inc").2] ["cc", "-I", "inc", "-DX"] ∧
      List.IsInfix [("-I", "inc").1, ("-I", "inc").2]
        (filter_flags_for_analysis "-O0" ["cc", "-I", "inc", "-DX"])) :=
  ⟨by decide,
    keep_pair_blocks_contiguous "-O0" ["cc", "-I", "inc", "-DX"] ("-I", "inc") (by decide)⟩
/-! ## C5 -/

/-- C5 counterexample: the engine is not idempotent.  Already on the output
of `["clang", "-D__KERNEL__", "-O2", "-c", "x.c"]` a second run reorders
the appended analysis tail: the two re-appended warning-suppression flags
move behind the value-name flag (which passes the scan), and the
pass-disabling flag is dropped and re-appended. -/
theorem engine_idempotence_counterexample :
    filter_flags_for_analysis "-O0"
        ("clang" :: filter_flags_for_analysis "-O0"
          ["clang", "-D__KERNEL__", "-O2", "-c", "x.c"]) ≠
      filter_flags_for_analysis "-O0" ["clang", "-D__KERNEL__", "-O2", "-c", "x.c"] := by
  decide

/-- C5 (amended): the engine is idempotent on inputs where (i) the
configured optimization level is one of the recognized optimization-level
tokens, (ii) the scanned tokens do not end in a bare keep-pair flag, and
(iii) the scan itself retains the value-name-preservation flag (so the
appended tail cannot be reordered by a rescan): re-running the engine on
its own output (behind any compiler name at index 0) returns that output
unchanged. -/
theorem engine_idempotent_conditional (opt compilerName : String) (args : List String)
    (hopt : opt ∈ optLevels)
    (hlast : noBareKP (args.drop 1))
    (hF : "-fno-discard-value-names" ∈ (engineScan opt args).out) :
    filter_flags_for_analysis opt (compilerName :: filter_flags_for_analysis opt args) =
      filter_flags_for_analysis opt args := by
  obtain ⟨δ, hδ, hst⟩ := scan_stable opt hopt (args.drop 1).length (args.drop 1) le_rfl
    hlast ⟨[], [], false, false⟩
  have hout : (engineScan opt args).out = δ := by
    rw [engineScan_eq_scanGo]
    simpa using hδ
  have hstδ : Stable opt [] δ := by simpa using hst
  have hFδ : "-fno-discard-value-names" ∈ δ := hout ▸ hF
  obtain ⟨t, ht, htmem⟩ := appendAnalysisFlags_decomp hFδ
  have hfilter : filter_flags_for_analysis opt args = δ ++ t := by
    rw [filter_flags_for_analysis, hout]
    exact ht
  rw [hfilter]
  rw [filter_flags_for_analysis, engineScan_eq_scanGo]
  simp only [List.drop_succ_cons, List.drop_zero]
  obtain ⟨st2, heq, hout2⟩ := stable_rescan hstδ ⟨[], [], false, false⟩ t rfl
  rw [heq, scan_drops_tail opt t htmem st2]
  have hst2out : st2.out = δ := by simpa using hout2
  rw [hst2out]
  exact ht

/-- C5 witness: a record that retains `-fno-discard-value-names` satisfies
all three side conditions and is a fixed point of the engine. -/
theorem engine_idempotent_conditional_witness :
    (("-O0" : String) ∈ optLevels ∧
      noBareKP ((["clang", "-O2", "-fno-discard-value-names", "-DX=1"] : List String).drop 1) ∧
      "-fno-discard-value-names" ∈
        (engineScan "-O0" ["clang", "-O2", "-fno-discard-value-names", "-DX=1"]).out) ∧
    filter_flags_for_analysis "-O0"
        ("clang" :: filter_flags_for_analysis "-O0"
          ["clang", "-O2", "-fno-discard-value-names", "-DX=1"]) =
      filter_flags_for_analysis "-O0" ["clang", "-O2", "-fno-discard-value-names", "-DX=1"] :=
  ⟨⟨by decide, by decide, by decide⟩,
    engine_idempotent_conditional "-O0" "clang"
      ["clang", "-O2", "-fno-discard-value-names", "-DX=1"]
      (by decide) (by decide) (by decide)⟩
